import Mathlib

/-!
Verification of the event/model/collection core of `src/models.ts`
(wendbv/javascript-models).  The TypeScript classes `Events`, `Model` and
`Collection` are shallowly embedded as Lean structures.  JavaScript object
maps become association lists; `Array.prototype.splice` and `indexOf` are
modelled by `jsSpliceDelete` and `jsIndexOf` with JavaScript's
negative-start semantics; the synchronous event cascade is executed by a
fuelled interpreter (`execCb`/`trigger`) over a closed world consisting of one containing
model `R` and one collection `S` (the only entity values occurring in the
scenarios under study).  Operations that throw a `TypeError` in JavaScript
(property access on `undefined`) return `none`.
-/

namespace JsModels

/-! ### Association lists (JavaScript objects) -/

def alookup {κ β : Type} [BEq κ] : List (κ × β) → κ → Option β
  | [], _ => none
  | kv :: rest, k => if kv.1 == k then some kv.2 else alookup rest k

def aset {κ β : Type} [BEq κ] : List (κ × β) → κ → β → List (κ × β)
  | [], k, v => [(k, v)]
  | kv :: rest, k, v => if kv.1 == k then (k, v) :: rest else kv :: aset rest k v

/-- JavaScript `delete obj[k]`. -/
def adel {κ β : Type} [BEq κ] (l : List (κ × β)) (k : κ) : List (κ × β) :=
  l.filter (fun kv => !(kv.1 == k))

def akeys {κ β : Type} (l : List (κ × β)) : List κ :=
  l.map (fun kv => kv.1)

/-! ### JavaScript array helpers -/

/-- `Array.prototype.indexOf`: first index of `x`, or `-1`. -/
def jsIndexOf {α : Type} [BEq α] : List α → α → Int
  | [], _ => -1
  | y :: rest, x =>
    if y == x then 0 else
      let r := jsIndexOf rest x
      if r < 0 then -1 else r + 1

/-- `Array.prototype.splice(start, 1)`: deletes one element, with
JavaScript's handling of a negative or overlarge `start`.  In particular
`splice(-1, 1)` deletes the last element. -/
def jsSpliceDelete {α : Type} (l : List α) (start : Int) : List α :=
  let s : Nat := if start < 0 then (start + l.length).toNat else min start.toNat l.length
  l.eraseIdx s

/-- `Array.prototype.splice(start, 0, x)` for `0 ≤ start ≤ length`. -/
def jsSpliceInsert {α : Type} (l : List α) (start : Nat) (x : α) : List α :=
  l.take start ++ x :: l.drop start

/-! ### Events (`class Events`)

The callbacks stored by the buses in this system are the finitely many
closure shapes that the source creates, plus externally registered,
inert callbacks (`ext`). -/

inductive Cb where
  /-- an externally registered callback; runs without touching R or S -/
  | ext (n : Nat)
  /-- the closure `Model.set` subscribes on an entity-valued field value:
  marks the containing model dirty and re-emits `change` and
  `change:<field>` on it -/
  | modelFieldSub (fld : String)
  /-- the closure `Collection.add` subscribes on a member's `change`:
  marks the set dirty, splices the member's pk out of `persisted`, and
  emits `change` on the set -/
  | memberChange (mid : Nat)
  /-- the closure `Collection.add` subscribes on a member's `change:pk`:
  rebuilds the pk → index map -/
  | memberChangePK
deriving DecidableEq

/-- State of `class Events`: the monotone handle counter, the
name → handles map and the handle → callback table. -/
structure EventsState where
  eventIndex : Nat := 0
  map : List (String × List Nat) := []
  events : List (Nat × Cb) := []
deriving DecidableEq

/-- `Events.on`. -/
def eventsOn (e : EventsState) (name : String) (cb : Cb) : EventsState × Nat :=
  let evts := (alookup e.map name).getD []
  let idx := e.eventIndex + 1
  ({ eventIndex := idx,
     map := aset e.map name (evts ++ [idx]),
     events := aset e.events idx cb }, idx)

/-- `Events.off`.  Note the source's
`evts.splice(evts.indexOf(eventIndex), 1)`: when the handle is not in the
list, `indexOf` yields `-1` and the splice removes the list's last
element. -/
def eventsOff (e : EventsState) (name : String) (idx : Nat) : EventsState :=
  match alookup e.map name with
  | none => e
  | some evts =>
    { e with
      map := aset e.map name (jsSpliceDelete evts (jsIndexOf evts idx)),
      events := adel e.events idx }

/-- The callbacks `Events.trigger name` invokes, in order: the handle list
under `name`, each resolved through the callback table (`none` stands for
the `undefined` a stale handle would produce). -/
def triggerInvoked (e : EventsState) (name : String) : List (Option Cb) :=
  ((alookup e.map name).getD []).map (fun i => alookup e.events i)

/-! ### Values, models and collections -/

/-- Field values.  `vcoll` is a reference to the single collection `S` of
the world (the only `Events`-capable value the studied scenarios store in
a field). -/
inductive Value where
  | undef
  | vstr (s : String)
  | vnum (n : Int)
  | vcoll
deriving DecidableEq

/-- `value instanceof Events`. -/
def isEntity : Value → Bool
  | .vcoll => true
  | _ => false

/-- JavaScript truthiness of the values above. -/
def truthy : Value → Bool
  | .undef => false
  | .vstr s => !(s == "")
  | .vnum n => !(n == 0)
  | .vcoll => true

/-- JavaScript `a || b`. -/
def jsOr (a b : Value) : Value := if truthy a then a else b

/-- Coercion of a value to a JavaScript property key. -/
def valueKey : Value → String
  | .undef => "undefined"
  | .vstr s => s
  | .vnum n => toString n
  | .vcoll => "[object Object]"

/-- State of a `Model` instance.  `id` models the JavaScript object
reference (the source compares and subscribes on models by reference);
the other fields are the source's `fieldNames`, `fields`, `mappedEvents`,
`persisted`, `clean` and the inherited `Events` state. -/
structure ModelState where
  id : Nat
  fieldNames : List String
  fields : List (String × Value)
  mappedEvents : List (String × List Nat)
  persisted : List (String × Value)
  clean : Bool
  ev : EventsState
deriving DecidableEq

/-- The state a freshly constructed model ends in: every declared field
(and its persisted snapshot) is `undefined`, `mappedEvents` holds an empty
list per field, the model is dirty, and the constructor's `this.pk = pk`
has stored the primary key through `set` (whose two `trigger` calls find
an empty bus). Requires `"pk" ∈ names`, which the `@field pk` declaration
on the base class guarantees in the source. -/
def newModel (names : List String) (id : Nat) (pkv : Value) : ModelState :=
  { id := id,
    fieldNames := names,
    fields := aset (names.map (fun n => (n, Value.undef))) "pk" pkv,
    mappedEvents := names.map (fun n => (n, [])),
    persisted := names.map (fun n => (n, Value.undef)),
    clean := false,
    ev := {} }

/-- `Model.get` (`return this.fields[property]`): total, yields
`undefined` for a name that was never declared or set. -/
def modelGet (m : ModelState) (property : String) : Value :=
  (alookup m.fields property).getD Value.undef

/-- A model's current `pk` field. -/
def modelPk (m : ModelState) : Value := modelGet m "pk"

/-- A model's current pk as a map key. -/
def mkey (m : ModelState) : String := valueKey (modelPk m)

/-- The key `Collection.rebuildMap` looks the old map entry up under:
`m.persisted['pk'] || m.pk`. -/
def lookupKey (m : ModelState) : String :=
  valueKey (jsOr ((alookup m.persisted "pk").getD Value.undef) (modelPk m))

/-- An entry of the collection's `modelMap`. -/
structure ModelMeta where
  index : Nat
  change : Nat
  changePK : Nat
deriving DecidableEq

/-- State of a `Collection` instance. -/
structure CollState where
  index : Nat := 0
  modelMap : List (String × ModelMeta) := []
  models : List ModelState := []
  persisted : List Value := []
  clean : Bool := false
  ev : EventsState := {}
deriving DecidableEq

/-- `Collection.rebuildMap`, as a fold over `models` with the running
position.  Each entry of the new map is the old map's entry under
`m.persisted['pk'] || m.pk` with its `index` overwritten; when that old
entry is absent the source throws (`newMap[m.pk].index` on `undefined`),
modelled by `none`.  (The source aliases the old meta object rather than
copying it; with pairwise distinct lookup keys, which all proofs below
assume or establish, the two coincide.) -/
def rebuildAux (oldMap : List (String × ModelMeta)) :
    List ModelState → Nat → List (String × ModelMeta) →
    Option (List (String × ModelMeta))
  | [], _, acc => some acc
  | m :: ms, i, acc =>
    match alookup oldMap (lookupKey m) with
    | none => none
    | some meta => rebuildAux oldMap ms (i + 1) (aset acc (mkey m) { meta with index := i })

def rebuildMap (c : CollState) : Option (List (String × ModelMeta)) :=
  rebuildAux c.modelMap c.models 0 []

/-- `Collection.get` (`this.models[this.modelMap[pk].index]`): `none`
when `modelMap[pk]` is absent (`TypeError` in the source). -/
def collGet (c : CollState) (pk : Value) : Option ModelState :=
  match alookup c.modelMap (valueKey pk) with
  | none => none
  | some meta => c.models[meta.index]?

/-- `Collection.at`. -/
def collAt (c : CollState) (i : Nat) : Option ModelState := c.models[i]?

/-- `Collection.all`. -/
def collAll (c : CollState) : List ModelState := c.models

/-! ### The closed world and the event interpreter -/

/-- The world the studied scenarios live in: one containing record `R`
and one collection `S` whose members are plain models. -/
structure World where
  R : ModelState
  S : CollState
deriving DecidableEq

/-- The entities a `trigger` can address. -/
inductive Ent where
  | recR
  | collS
  | member (mid : Nat)
deriving DecidableEq

def memberFind (w : World) (mid : Nat) : Option ModelState :=
  w.S.models.find? (fun x => x.id == mid)

/-- The bus of an entity (a missing member yields an empty bus; the
scenarios never trigger on a missing member). -/
def busOf (w : World) : Ent → EventsState
  | .recR => w.R.ev
  | .collS => w.S.ev
  | .member mid => ((memberFind w mid).map (fun m => m.ev)).getD {}

/-- An emitted event: which entity triggered which name. -/
abbrev Emit : Type := Ent × String

/-- Run a list of subscription handles on `ent`'s bus, resolving each
through the live callback table (a stale handle is `undefined` in the
source and calling it throws, hence `none`) and running it with the given
callback runner `r`. -/
def runList (r : World → Cb → Option (World × List Emit)) (ent : Ent) :
    World → List Nat → Option (World × List Emit)
  | w, [] => some (w, [])
  | w, i :: is => do
    let cb ← alookup (busOf w ent).events i
    let (w1, t1) ← r w cb
    let (w2, t2) ← runList r ent w1 is
    some (w2, t1 ++ t2)

/-- `Events.trigger` relative to a callback runner: read the current
handle list under `name`, emit the event and run the handlers. -/
def runTrig (r : World → Cb → Option (World × List Emit)) (w : World) (ent : Ent)
    (name : String) : Option (World × List Emit) := do
  let (w1, t) ← runList r ent w ((alookup (busOf w ent).map name).getD [])
  some (w1, (ent, name) :: t)

/-- Run one callback's body, exactly as written in the source closures.
Fuel bounds the callback nesting depth; every scenario below nests at
most one callback deep. -/
def execCb : Nat → World → Cb → Option (World × List Emit)
  | 0, _, _ => none
  | fuel + 1, w, cb =>
    match cb with
    | .ext _ => some (w, [])
    | .modelFieldSub fld => do
      -- () => { this.clean = false; this.trigger('change'); this.trigger(`change:${property}`); }
      let w1 : World := { w with R := { w.R with clean := false } }
      let (w2, t1) ← runTrig (execCb fuel) w1 .recR "change"
      let (w3, t2) ← runTrig (execCb fuel) w2 .recR ("change:" ++ fld)
      some (w3, t1 ++ t2)
    | .memberChange mid => do
      -- () => { this.clean = false; this.persisted.splice(this.persisted.indexOf(model.pk), 1); this.trigger('change'); }
      let m ← memberFind w mid
      let S1 : CollState :=
        { w.S with
          clean := false,
          persisted := jsSpliceDelete w.S.persisted (jsIndexOf w.S.persisted (modelPk m)) }
      runTrig (execCb fuel) { w with S := S1 } .collS "change"
    | .memberChangePK => do
      -- () => { this.rebuildMap(); }
      let nm ← rebuildMap w.S
      some ({ w with S := { w.S with modelMap := nm } }, [])

/-- The synchronous event cascade: `entity.trigger(name)` at a given
callback-nesting fuel. -/
def trigger (fuel : Nat) (w : World) (ent : Ent) (name : String) :
    Option (World × List Emit) :=
  runTrig (execCb fuel) w ent name

/-! ### World-level operations -/

/-- `Model.set` on the containing record `R`.  The two branches mirror
the source: unsubscribe the tracked handles from the old entity value,
subscribe `modelFieldSub` on the new one; on an undeclared field whose
value is an entity, `this.mappedEvents[property].push` is a `TypeError`
(`none`).  Then store, dirty, and trigger `change` and
`change:<property>`. -/
def modelSetW (fuel : Nat) (w : World) (property : String) (value : Value) :
    Option (World × List Emit) := do
  let current := modelGet w.R property
  let w1 ←
    if isEntity current then do
      let hs ← alookup w.R.mappedEvents property
      some { w with
             S := { w.S with ev := hs.foldl (fun s e => eventsOff s "change" e) w.S.ev },
             R := { w.R with mappedEvents := aset w.R.mappedEvents property [] } }
    else some w
  let w2 ←
    if isEntity value then do
      let hs ← alookup w1.R.mappedEvents property
      let p := eventsOn w1.S.ev "change" (.modelFieldSub property)
      some { w1 with
             S := { w1.S with ev := p.1 },
             R := { w1.R with mappedEvents := aset w1.R.mappedEvents property (hs ++ [p.2]) } }
    else some w1
  let w3 : World :=
    { w2 with R := { w2.R with fields := aset w2.R.fields property value, clean := false } }
  let (w4, t1) ← trigger fuel w3 .recR "change"
  let (w5, t2) ← trigger fuel w4 .recR ("change:" ++ property)
  some (w5, t1 ++ t2)

/-- `Model.persist` on `R`: `false` and no event when clean; otherwise set
clean, copy every current field value into the persisted snapshot, emit
`persist`, return `true`. -/
def modelPersistW (fuel : Nat) (w : World) : Option (World × Bool × List Emit) :=
  if w.R.clean then some (w, false, [])
  else
    let R1 : ModelState :=
      { w.R with
        clean := true,
        persisted := w.R.fields.foldl (fun p kv => aset p kv.1 kv.2) w.R.persisted }
    (trigger fuel { w with R := R1 } .recR "persist").bind
      (fun p => some (p.1, true, p.2))

/-- `Collection.add`: push the model, subscribe `change` and `change:pk`
on it, store the meta under the model's pk, dirty the set, trigger
`change` then `append`. -/
def collAddW (fuel : Nat) (w : World) (m : ModelState) : Option (World × List Emit) :=
  let len := w.S.models.length
  let p1 := eventsOn m.ev "change" (.memberChange m.id)
  let p2 := eventsOn p1.1 "change:pk" .memberChangePK
  let m1 : ModelState := { m with ev := p2.1 }
  let meta : ModelMeta := { index := len, change := p1.2, changePK := p2.2 }
  let S1 : CollState :=
    { w.S with
      models := w.S.models ++ [m1],
      modelMap := aset w.S.modelMap (mkey m) meta,
      clean := false }
  do
  let (w1, t1) ← trigger fuel { w with S := S1 } .collS "change"
  let (w2, t2) ← trigger fuel w1 .collS "append"
  some (w2, t1 ++ t2)

/-- `Collection.remove`: dirty, splice the model out of `models`
(`indexOf` is `-1` for a non-member, so the splice then removes the last
member), delete its pk from the map, splice its pk out of `persisted`
(same `-1` behaviour), rebuild the map, trigger `change` then `remove`. -/
def collRemoveW (fuel : Nat) (w : World) (m : ModelState) : Option (World × List Emit) :=
  let S0 : CollState := { w.S with clean := false }
  let S1 : CollState :=
    { S0 with
      models := jsSpliceDelete S0.models (jsIndexOf (S0.models.map (fun x => x.id)) m.id),
      modelMap := adel S0.modelMap (mkey m),
      persisted := jsSpliceDelete S0.persisted (jsIndexOf S0.persisted (modelPk m)) }
  do
  let nm ← rebuildMap S1
  let (w1, t1) ← trigger fuel { w with S := { S1 with modelMap := nm } } .collS "change"
  let (w2, t2) ← trigger fuel w1 .collS "remove"
  some (w2, t1 ++ t2)

/-- `Collection.moveAt`: clamp `index + offset` into `[0, length-1]`,
splice the model out and back in, rebuild the map, trigger `change`.
An out-of-range source index makes `at` yield `undefined` and the rebuild
then throws on `undefined['pk']`, hence `none`. -/
def collMoveAtW (fuel : Nat) (w : World) (index : Nat) (offset : Int) :
    Option (World × List Emit) :=
  do
  let m ← w.S.models[index]?
  let len := w.S.models.length
  let ni : Int := (index : Int) + offset
  let newIndex : Nat := if ni < 0 then 0 else if ni > (len : Int) - 1 then len - 1 else ni.toNat
  let S1 : CollState :=
    { w.S with models := jsSpliceInsert (w.S.models.eraseIdx index) newIndex m }
  let nm ← rebuildMap S1
  trigger fuel { w with S := { S1 with modelMap := nm } } .collS "change"

/-- `Collection.persist`: `false` and no event when clean; otherwise set
clean, snapshot the ordered pk sequence, emit `persist`, return `true`. -/
def collPersistW (fuel : Nat) (w : World) : Option (World × Bool × List Emit) :=
  if w.S.clean then some (w, false, [])
  else
    let S1 : CollState :=
      { w.S with clean := true, persisted := w.S.models.map modelPk }
    (trigger fuel { w with S := S1 } .collS "persist").bind
      (fun p => some (p.1, true, p.2))

/-- `Model.set` on a member of `S` (member `mid`).  The members of the
studied scenarios hold no entity values in their fields, so the two
entity branches of `set` are out of scope here and explicitly guarded. -/
def memberSetW (fuel : Nat) (w : World) (mid : Nat) (property : String) (value : Value) :
    Option (World × List Emit) :=
  do
  let m ← memberFind w mid
  if isEntity (modelGet m property) || isEntity value then none
  else do
    let m1 : ModelState := { m with fields := aset m.fields property value, clean := false }
    let w1 : World :=
      { w with S := { w.S with models := w.S.models.map (fun x => if x.id == mid then m1 else x) } }
    let (w2, t1) ← trigger fuel w1 (.member mid) "change"
    let (w3, t2) ← trigger fuel w2 (.member mid) ("change:" ++ property)
    some (w3, t1 ++ t2)

/-- `Collection.move`: resolve the model's current position by reference,
then delegate to `moveAt`.  (A non-member's `indexOf` is `-1`; `at(-1)` is
`undefined` in the source and the subsequent rebuild throws, hence
`none`.) -/
def collMoveW (fuel : Nat) (w : World) (m : ModelState) (offset : Int) :
    Option (World × List Emit) :=
  let idx := jsIndexOf (w.S.models.map (fun x => x.id)) m.id
  if idx < 0 then none else collMoveAtW fuel w idx.toNat offset

/-- The clamped target position of `moveAt` as the spec words it:
`clamp(index + offset, 0, length - 1)`. -/
def specClamp (i : Nat) (off : Int) (n : Nat) : Nat :=
  (max 0 (min ((i : Int) + off) ((n : Int) - 1))).toNat

/-! ### The collection representation invariant and operation sequences -/

/-- All subscription lists on a bus are empty (a standalone entity nobody
listens to; the collection operations never subscribe on the collection's
own bus, only on its members'). -/
def busQuiet (e : EventsState) : Bool := e.map.all (fun kv => kv.2.isEmpty)

/-- The member's rebuild lookup key agrees with its current pk key: its
persisted pk is unset (never persisted) or equal to its current pk. -/
def stableKeyB (m : ModelState) : Bool := lookupKey m == mkey m

/-- Position clause of the invariant: walking `models` from position `i`,
each member's current pk has a `modelMap` entry whose `index` is the
member's position. -/
def goodIdxB (mp : List (String × ModelMeta)) : List ModelState → Nat → Bool
  | [], _ => true
  | m :: ms, i =>
    (match alookup mp (mkey m) with
     | some meta => meta.index == i
     | none => false) && goodIdxB mp ms (i + 1)

/-- Map clause of the invariant: every `modelMap` entry points back at a
member carrying exactly that key. -/
def goodMapB (c : CollState) : Bool :=
  c.modelMap.all (fun kv =>
    match c.models[kv.2.index]? with
    | some m => mkey m == kv.1
    | none => false)

/-- The `Collection` representation invariant: `modelMap` positions
mirror the `models` ordering in both directions, member pks are pairwise
distinct (as are the underlying object references), map keys are unique,
and every member's rebuild lookup key is its own pk key. -/
def goodCollB (c : CollState) : Bool :=
  goodIdxB c.modelMap c.models 0 &&
  goodMapB c &&
  decide ((c.models.map mkey).Nodup) &&
  decide ((c.models.map (fun m => m.id)).Nodup) &&
  decide ((akeys c.modelMap).Nodup) &&
  c.models.all stableKeyB

/-- The membership-mutating collection operations. -/
inductive COp where
  | add (m : ModelState)
  | remove (m : ModelState)
  | moveAt (i : Nat) (off : Int)
deriving DecidableEq

def applyOpW (fuel : Nat) (w : World) : COp → Option (World × List Emit)
  | .add m => collAddW fuel w m
  | .remove m => collRemoveW fuel w m
  | .moveAt i off => collMoveAtW fuel w i off

def applyOpsW (fuel : Nat) (w : World) : List COp → Option World
  | [] => some w
  | op :: ops =>
    match applyOpW fuel w op with
    | none => none
    | some (w1, _) => applyOpsW fuel w1 ops

/-- Validity of one operation in the sense of the API contract: `add` a
fresh record (fresh reference, fresh pk, rebuild lookup key matching its
pk), `remove` a current member, `moveAt` a valid source index. -/
def validOpB (c : CollState) : COp → Bool
  | .add m =>
    !((c.models.map mkey).contains (mkey m)) &&
    !((c.models.map (fun x => x.id)).contains m.id) &&
    stableKeyB m
  | .remove m => c.models.contains m
  | .moveAt i _ => decide (i < c.models.length)

/-- Validity of a whole sequence of operations, each judged in the state
it actually runs in. -/
def validSeqB (fuel : Nat) (w : World) : List COp → Bool
  | [] => true
  | op :: ops =>
    validOpB w.S op &&
    match applyOpW fuel w op with
    | none => false
    | some (w1, _) => validSeqB fuel w1 ops

/-! ### Concrete fixtures (the `FooModel` shape of the test suite) -/

def fooNames : List String := ["pk", "bar", "qux"]

def mA : ModelState := newModel fooNames 1 (.vstr "1")
def mB : ModelState := newModel fooNames 2 (.vstr "2")
def mC : ModelState := newModel fooNames 3 (.vstr "3")
def mD : ModelState := newModel fooNames 4 (.vstr "4")

def collAddAllW (fuel : Nat) (w : World) : List ModelState → Option World
  | [] => some w
  | m :: ms =>
    match collAddW fuel w m with
    | none => none
    | some (w1, _) => collAddAllW fuel w1 ms

def emptyWorld : World := { R := newModel ["pk", "foos"] 0 (.vstr "r"), S := {} }

/-- `[A, B, C, D]`, all added through `Collection.add`. -/
def w4 : World := (collAddAllW 1 emptyWorld [mA, mB, mC, mD]).getD emptyWorld

/-- A world with given record and collection data and fresh (empty) buses
on both entities: the state in which a record and a collection exist but
nothing has been wired yet. -/
def plainWorld (rid : Nat) (fns : List String) (flds : List (String × Value)) (mev : List (String × List Nat)) (per : List (String × Value)) (b : Bool) (mm : List (String × ModelMeta)) (ms : List ModelState) (ps : List Value) (sb : Bool) : World :=
  { R := { id := rid, fieldNames := fns, fields := flds, mappedEvents := mev, persisted := per, clean := b, ev := {} },
    S := { index := 0, modelMap := mm, models := ms, persisted := ps, clean := sb, ev := {} } }

/-- A bus with two subscriptions under `"foo"` (handles 1 and 2). -/
def c7bus : EventsState :=
  (eventsOn (eventsOn {} "foo" (.ext 10)).1 "foo" (.ext 20)).1

/-- A fresh `FooModel`-shaped record world. -/
def c8world : World := { R := newModel fooNames 0 (.vstr "1"), S := {} }

/-- A world whose collection has persisted keys `["9"]` and no members. -/
def c6base : World := { R := newModel ["pk"] 0 (.vstr "r"), S := { persisted := [.vstr "9"] } }

/-- `c6base` after `add(mA)` (`mA` has pk `"1"`). -/
def c6world : World := ((collAddW 1 c6base mA).map (fun p => p.1)).getD emptyWorld

/-- `[A, B]` added to an empty collection. -/
def c9world : World := (collAddAllW 1 emptyWorld [mA, mB]).getD emptyWorld

/-- A stray record that is not a member of `c9world`'s collection. -/
def c9stray : ModelState := newModel fooNames 99 (.vstr "zz")

/-- A stray non-member whose pk collides with member `mA`'s. -/
def c9strayCollide : ModelState := newModel fooNames 99 (.vstr "1")

/-! ### Lemmas about association lists -/

theorem alookup_aset_self {κ β : Type} [BEq κ] [LawfulBEq κ] (l : List (κ × β)) (k : κ) (v : β) :
    alookup (aset l k v) k = some v := by
  induction l with
  | nil => simp [aset, alookup]
  | cons kv rest ih =>
    by_cases h : kv.1 == k
    · simp [aset, h, alookup]
    · simp [aset, h, alookup, ih]

theorem alookup_aset_ne {κ β : Type} [BEq κ] [LawfulBEq κ] (l : List (κ × β)) (k k' : κ) (v : β)
    (hne : k' ≠ k) : alookup (aset l k v) k' = alookup l k' := by
  induction l with
  | nil => simp [aset, alookup, Ne.symm hne]
  | cons kv rest ih =>
    by_cases h : kv.1 == k
    · have h1 : kv.1 = k := by simpa using h
      simp [aset, h, alookup, Ne.symm hne, h1]
    · by_cases h2 : kv.1 == k'
      · simp [aset, h, alookup, h2]
      · simp [aset, h, alookup, h2, ih]

theorem alookup_adel_self {κ β : Type} [BEq κ] [LawfulBEq κ] (l : List (κ × β)) (k : κ) :
    alookup (adel l k) k = none := by
  induction l with
  | nil => simp [adel, alookup]
  | cons kv rest ih =>
    by_cases h : kv.1 == k
    · simpa [adel, h] using ih
    · simpa [adel, alookup, h] using ih

theorem adel_cons_pos {κ β : Type} [BEq κ] (kv : κ × β) (rest : List (κ × β)) (k : κ)
    (h : (kv.1 == k) = true) : adel (kv :: rest) k = adel rest k := by
  simp [adel, List.filter_cons, h]

theorem adel_cons_neg {κ β : Type} [BEq κ] (kv : κ × β) (rest : List (κ × β)) (k : κ)
    (h : (kv.1 == k) = false) : adel (kv :: rest) k = kv :: adel rest k := by
  simp [adel, List.filter_cons, h]

theorem alookup_adel_ne {κ β : Type} [BEq κ] [LawfulBEq κ] (l : List (κ × β)) (k k' : κ)
    (hne : k' ≠ k) : alookup (adel l k) k' = alookup l k' := by
  induction l with
  | nil => simp [adel, alookup]
  | cons kv rest ih =>
    by_cases h : (kv.1 == k) = true
    · have h1 : kv.1 = k := by simpa using h
      have h2 : (kv.1 == k') = false := by simp [h1, Ne.symm hne]
      rw [adel_cons_pos kv rest k h, ih, alookup, h2]
      simp
    · rw [adel_cons_neg kv rest k (by simpa using h)]
      by_cases h2 : (kv.1 == k') = true
      · rw [alookup, alookup, h2]
        simp
      · have h2' : (kv.1 == k') = false := by simpa using h2
        rw [alookup, alookup, h2']
        simp [ih]

theorem alookup_eq_none_of_not_mem {κ β : Type} [BEq κ] [LawfulBEq κ] (l : List (κ × β)) (k : κ)
    (h : k ∉ akeys l) : alookup l k = none := by
  induction l with
  | nil => simp [alookup]
  | cons kv rest ih =>
    simp only [akeys, List.map_cons, List.mem_cons] at h
    push_neg at h
    have h1 : (kv.1 == k) = false := by simp [Ne.symm h.1]
    rw [alookup, h1]
    simpa using ih (by simpa [akeys] using h.2)

theorem mem_akeys_of_alookup {κ β : Type} [BEq κ] [LawfulBEq κ] (l : List (κ × β)) (k : κ) (v : β)
    (h : alookup l k = some v) : k ∈ akeys l := by
  induction l with
  | nil => simp [alookup] at h
  | cons kv rest ih =>
    by_cases h1 : (kv.1 == k) = true
    · have : kv.1 = k := by simpa using h1
      simp [akeys, this]
    · rw [alookup, Bool.eq_false_iff.mpr h1] at h
      simp only [Bool.false_eq_true, if_false] at h
      have := ih h
      simp only [akeys, List.map_cons, List.mem_cons]
      right
      simpa [akeys] using this

theorem akeys_aset_of_mem {κ β : Type} [BEq κ] [LawfulBEq κ] (l : List (κ × β)) (k : κ) (v : β)
    (h : k ∈ akeys l) : akeys (aset l k v) = akeys l := by
  induction l with
  | nil => simp [akeys] at h
  | cons kv rest ih =>
    by_cases h1 : (kv.1 == k) = true
    · have : kv.1 = k := by simpa using h1
      simp [aset, h1, akeys, this]
    · have hk : kv.1 ≠ k := by simpa using h1
      simp only [akeys, List.map_cons, List.mem_cons] at h
      rcases h with h | h
      · exact absurd h.symm hk
      · have := ih (by simpa [akeys] using h)
        simp only [aset, h1, Bool.false_eq_true, if_false, akeys, List.map_cons,
          List.cons.injEq, true_and]
        simpa [akeys] using this

theorem akeys_aset_of_not_mem {κ β : Type} [BEq κ] [LawfulBEq κ] (l : List (κ × β)) (k : κ) (v : β)
    (h : k ∉ akeys l) : akeys (aset l k v) = akeys l ++ [k] := by
  induction l with
  | nil => simp [aset, akeys]
  | cons kv rest ih =>
    simp only [akeys, List.map_cons, List.mem_cons] at h
    push_neg at h
    have h1 : (kv.1 == k) = false := by simp [Ne.symm h.1]
    have := ih (by simpa [akeys] using h.2)
    simp only [aset, h1, Bool.false_eq_true, if_false, akeys, List.map_cons, List.cons_append,
      List.cons.injEq, true_and]
    simpa [akeys] using this

theorem akeys_adel {κ β : Type} [BEq κ] (l : List (κ × β)) (k : κ) :
    akeys (adel l k) = (akeys l).filter (fun x => !(x == k)) := by
  induction l with
  | nil => simp [adel, akeys]
  | cons kv rest ih =>
    by_cases h : (kv.1 == k) = true
    · rw [adel_cons_pos kv rest k h, ih]
      simp [akeys, List.filter_cons, h]
    · rw [adel_cons_neg kv rest k (by simpa using h)]
      simp only [akeys, List.map_cons, List.filter_cons]
      rw [show (!(kv.1 == k)) = true by simpa using h]
      simp only [if_true, List.cons.injEq, true_and]
      simpa [akeys] using ih

/-! ### Lemmas about the JavaScript array helpers -/

theorem jsIndexOf_not_mem {α : Type} [BEq α] [LawfulBEq α] (l : List α) (x : α)
    (h : x ∉ l) : jsIndexOf l x = -1 := by
  induction l with
  | nil => simp [jsIndexOf]
  | cons y rest ih =>
    simp only [List.mem_cons] at h
    push_neg at h
    have : ¬(y == x) := by simpa using (Ne.symm h.1)
    simp [jsIndexOf, this, ih h.2]

theorem jsIndexOf_mem_nonneg {α : Type} [BEq α] [LawfulBEq α] (l : List α) (x : α)
    (h : x ∈ l) : 0 ≤ jsIndexOf l x := by
  induction l with
  | nil => simp at h
  | cons y rest ih =>
    by_cases h1 : (y == x) = true
    · simp [jsIndexOf, h1]
    · have hx : x ∈ rest := by
        rcases List.mem_cons.mp h with h2 | h2
        · exact absurd (by simp [h2]) h1
        · exact h2
      have := ih hx
      simp only [jsIndexOf, h1, Bool.false_eq_true, if_false]
      rw [if_neg (by omega)]
      omega

theorem jsIndexOf_nodup_getElem {α : Type} [BEq α] [LawfulBEq α] (l : List α) (x : α) (i : Nat)
    (hnd : l.Nodup) (h : l[i]? = some x) : jsIndexOf l x = i := by
  induction l generalizing i with
  | nil => simp at h
  | cons y rest ih =>
    match i with
    | 0 =>
      simp only [List.getElem?_cons_zero, Option.some_inj] at h
      simp [jsIndexOf, h]
    | i + 1 =>
      simp only [List.getElem?_cons_succ] at h
      have hx : x ∈ rest := List.getElem?_mem h
      have hy : y ∉ rest := (List.nodup_cons.mp hnd).1
      have hne : (y == x) = false := by
        simp only [beq_eq_false_iff_ne]
        intro hc; exact hy (hc ▸ hx)
      have hrec := ih i (List.nodup_cons.mp hnd).2 h
      have hnn : 0 ≤ jsIndexOf rest x := jsIndexOf_mem_nonneg rest x hx
      simp only [jsIndexOf, hne, Bool.false_eq_true, if_false]
      rw [if_neg (by omega), hrec]
      push_cast
      ring

theorem eraseIdx_of_length_le {α : Type} (l : List α) (n : Nat) (h : l.length ≤ n) :
    l.eraseIdx n = l := by
  induction l generalizing n with
  | nil => simp
  | cons y rest ih =>
    match n with
    | 0 => simp at h
    | n + 1 =>
      simp only [List.length_cons] at h
      simp [List.eraseIdx, ih n (by omega)]

theorem eraseIdx_length_sub_one {α : Type} (l : List α) :
    l.eraseIdx (l.length - 1) = l.dropLast := by
  match l with
  | [] => simp
  | y :: rest =>
    rw [List.eraseIdx_eq_take_drop_succ, List.dropLast_eq_take]
    have h1 : (y :: rest).length - 1 + 1 = (y :: rest).length := by simp
    rw [h1, List.drop_length]
    simp

theorem jsSpliceDelete_neg_one {α : Type} (l : List α) :
    jsSpliceDelete l (-1) = l.dropLast := by
  rw [← eraseIdx_length_sub_one]
  simp only [jsSpliceDelete]
  have h1 : ((-1 : Int) + (l.length : Int)).toNat = l.length - 1 := by omega
  rw [if_pos (by norm_num), h1]

theorem jsSpliceDelete_nonneg {α : Type} (l : List α) (s : Int) (h : 0 ≤ s) :
    jsSpliceDelete l s = l.eraseIdx s.toNat := by
  simp only [jsSpliceDelete]
  rw [if_neg (by omega)]
  by_cases hle : s.toNat ≤ l.length
  · rw [Nat.min_eq_left hle]
  · rw [Nat.min_eq_right (by omega), eraseIdx_of_length_le _ _ (by omega),
      eraseIdx_of_length_le _ _ (by omega)]

theorem jsSpliceDelete_indexOf_mem {α : Type} [BEq α] [LawfulBEq α] (l : List α) (x : α)
    (h : x ∈ l) : jsSpliceDelete l (jsIndexOf l x) = l.erase x := by
  induction l with
  | nil => simp at h
  | cons y rest ih =>
    by_cases h1 : (y == x) = true
    · simp only [jsIndexOf, h1, if_true]
      rw [jsSpliceDelete_nonneg _ _ (by norm_num)]
      simp [List.erase_cons, h1]
    · have hx : x ∈ rest := by
        rcases List.mem_cons.mp h with h2 | h2
        · exact absurd (by simp [h2]) h1
        · exact h2
      have hnn : 0 ≤ jsIndexOf rest x := jsIndexOf_mem_nonneg rest x hx
      simp only [jsIndexOf, h1, Bool.false_eq_true, if_false]
      rw [if_neg (by omega)]
      rw [jsSpliceDelete_nonneg _ _ (by omega)]
      have htn : (jsIndexOf rest x + 1).toNat = (jsIndexOf rest x).toNat + 1 := by omega
      rw [htn, List.eraseIdx_cons_succ, List.erase_cons, if_neg (by simp [h1])]
      congr 1
      have := ih hx
      rw [jsSpliceDelete_nonneg _ _ hnn] at this
      exact this

/-! ### Lemmas about the event interpreter -/

theorem runTrig_nil (r : World → Cb → Option (World × List Emit)) (w : World) (ent : Ent)
    (name : String) (h : (alookup (busOf w ent).map name).getD [] = []) :
    runTrig r w ent name = some (w, [(ent, name)]) := by
  simp [runTrig, h, runList]

theorem trigger_nil (fuel : Nat) (w : World) (ent : Ent) (name : String)
    (h : (alookup (busOf w ent).map name).getD [] = []) :
    trigger fuel w ent name = some (w, [(ent, name)]) :=
  runTrig_nil _ w ent name h

theorem allEmpty_lookup (l : List (String × List Nat)) (name : String)
    (h : l.all (fun kv => kv.2.isEmpty) = true) : (alookup l name).getD [] = [] := by
  induction l with
  | nil => simp [alookup]
  | cons kv rest ih =>
    simp only [List.all_cons, Bool.and_eq_true] at h
    by_cases h1 : (kv.1 == name) = true
    · rw [alookup, h1]
      simpa [List.isEmpty_iff] using h.1
    · rw [alookup, Bool.eq_false_iff.mpr h1]
      simpa using ih h.2

theorem busQuiet_trigger (fuel : Nat) (w : World) (ent : Ent) (name : String)
    (h : busQuiet (busOf w ent) = true) :
    trigger fuel w ent name = some (w, [(ent, name)]) :=
  trigger_nil fuel w ent name (allEmpty_lookup _ name h)

theorem trigger_quiet_R (fuel : Nat) (w : World) (name : String)
    (h : busQuiet w.R.ev = true) :
    trigger fuel w .recR name = some (w, [(.recR, name)]) :=
  trigger_nil fuel w .recR name (allEmpty_lookup _ name h)

theorem trigger_quiet_S (fuel : Nat) (w : World) (name : String)
    (h : busQuiet w.S.ev = true) :
    trigger fuel w .collS name = some (w, [(.collS, name)]) :=
  trigger_nil fuel w .collS name (allEmpty_lookup _ name h)

theorem runTrig_quiet_S (r : World → Cb → Option (World × List Emit)) (w : World) (name : String)
    (h : busQuiet w.S.ev = true) :
    runTrig r w .collS name = some (w, [(.collS, name)]) :=
  runTrig_nil r w .collS name (allEmpty_lookup _ name h)

/-! ### Lemmas about persisting -/

theorem alookup_foldl_aset_not_mem {κ β : Type} [BEq κ] [LawfulBEq κ]
    (flds : List (κ × β)) (per : List (κ × β)) (k : κ) (h : k ∉ akeys flds) :
    alookup (flds.foldl (fun p kv => aset p kv.1 kv.2) per) k = alookup per k := by
  induction flds generalizing per with
  | nil => simp
  | cons kv rest ih =>
    simp only [akeys, List.map_cons, List.mem_cons] at h
    push_neg at h
    rw [List.foldl_cons, ih (aset per kv.1 kv.2) (by simpa [akeys] using h.2),
      alookup_aset_ne per kv.1 k kv.2 h.1]

theorem alookup_foldl_aset {κ β : Type} [BEq κ] [LawfulBEq κ]
    (flds : List (κ × β)) (per : List (κ × β)) (hnd : (akeys flds).Nodup)
    (k : κ) (v : β) (h : alookup flds k = some v) :
    alookup (flds.foldl (fun p kv => aset p kv.1 kv.2) per) k = some v := by
  induction flds generalizing per with
  | nil => simp [alookup] at h
  | cons kv rest ih =>
    simp only [akeys, List.map_cons, List.nodup_cons] at hnd
    by_cases h1 : (kv.1 == k) = true
    · have hk : kv.1 = k := by simpa using h1
      rw [alookup, h1] at h
      simp only [if_true, Option.some_inj] at h
      rw [List.foldl_cons,
        alookup_foldl_aset_not_mem rest (aset per kv.1 kv.2) k (by simpa [akeys, hk] using hnd.1),
        hk, alookup_aset_self, h]
    · rw [alookup, Bool.eq_false_iff.mpr h1] at h
      simp only [Bool.false_eq_true, if_false] at h
      rw [List.foldl_cons]
      exact ih (aset per kv.1 kv.2) (by simpa [akeys] using hnd.2) h

theorem modelPersistW_dirty (fuel : Nat) (w : World) (h : w.R.clean = false)
    (hbus : busQuiet w.R.ev = true) :
    modelPersistW fuel w = some ({ w with R := { w.R with clean := true, persisted := w.R.fields.foldl (fun p kv => aset p kv.1 kv.2) w.R.persisted } }, true, [(.recR, "persist")]) := by
  simp only [modelPersistW, h, Bool.false_eq_true, if_false]
  rw [trigger_quiet_R]
  · rfl
  · exact hbus

theorem modelPersistW_clean (fuel : Nat) (w : World) (h : w.R.clean = true) :
    modelPersistW fuel w = some (w, false, []) := by
  simp [modelPersistW, h]

theorem collPersistW_dirty (fuel : Nat) (w : World) (h : w.S.clean = false)
    (hbus : busQuiet w.S.ev = true) :
    collPersistW fuel w = some ({ w with S := { w.S with clean := true, persisted := w.S.models.map modelPk } }, true, [(.collS, "persist")]) := by
  simp only [collPersistW, h, Bool.false_eq_true, if_false]
  rw [trigger_quiet_S]
  · rfl
  · exact hbus

theorem collPersistW_clean (fuel : Nat) (w : World) (h : w.S.clean = true) :
    collPersistW fuel w = some (w, false, []) := by
  simp [collPersistW, h]

/-! ### Lemmas about the collection invariant and the rebuild -/

theorem goodIdxB_iff (mp : List (String × ModelMeta)) (ms : List ModelState) (i : Nat) :
    goodIdxB mp ms i = true ↔
      ∀ j m, ms[j]? = some m → ∃ meta, alookup mp (mkey m) = some meta ∧ meta.index = i + j := by
  induction ms generalizing i with
  | nil => simp [goodIdxB]
  | cons m0 rest ih =>
    simp only [goodIdxB, Bool.and_eq_true]
    constructor
    · rintro ⟨h1, h2⟩ j m hj
      match j with
      | 0 =>
        simp only [List.getElem?_cons_zero, Option.some_inj] at hj
        match hmeta : alookup mp (mkey m0) with
        | none => rw [hmeta] at h1; simp at h1
        | some meta =>
          rw [hmeta] at h1
          refine ⟨meta, hj ▸ hmeta, ?_⟩
          simp only [beq_iff_eq] at h1
          omega
      | j + 1 =>
        simp only [List.getElem?_cons_succ] at hj
        obtain ⟨meta, hm1, hm2⟩ := (ih (i + 1)).mp h2 j m hj
        exact ⟨meta, hm1, by omega⟩
    · intro h
      constructor
      · obtain ⟨meta, hm1, hm2⟩ := h 0 m0 (by simp)
        rw [hm1]
        simpa using hm2.symm ▸ (by omega : meta.index = meta.index)
      · refine (ih (i + 1)).mpr ?_
        intro j m hj
        obtain ⟨meta, hm1, hm2⟩ := h (j + 1) m (by simpa using hj)
        exact ⟨meta, hm1, by omega⟩

theorem goodCollB_stable (c : CollState) (h : goodCollB c = true) :
    ∀ x ∈ c.models, lookupKey x = mkey x := by
  intro x hx
  simp only [goodCollB, Bool.and_eq_true] at h
  have := h.2
  rw [List.all_eq_true] at this
  simpa [stableKeyB] using this x hx

theorem goodCollB_lookup (c : CollState) (h : goodCollB c = true) :
    ∀ x ∈ c.models, ∃ meta, alookup c.modelMap (mkey x) = some meta := by
  intro x hx
  simp only [goodCollB, Bool.and_eq_true] at h
  obtain ⟨j, hj⟩ := List.getElem?_of_mem hx
  obtain ⟨meta, hm, _⟩ := (goodIdxB_iff c.modelMap c.models 0).mp h.1.1.1.1.1 j x hj
  exact ⟨meta, hm⟩

theorem rebuildAux_isSome (oldMap : List (String × ModelMeta)) (ms : List ModelState)
    (h : ∀ x ∈ ms, (alookup oldMap (lookupKey x)).isSome = true) :
    ∀ (i : Nat) (acc : List (String × ModelMeta)),
      (rebuildAux oldMap ms i acc).isSome = true := by
  induction ms with
  | nil => intro i acc; simp [rebuildAux]
  | cons m rest ih =>
    intro i acc
    have hm := h m (by simp)
    obtain ⟨meta, hmeta⟩ := Option.isSome_iff_exists.mp hm
    simp only [rebuildAux, hmeta]
    exact ih (fun x hx => h x (by simp [hx])) (i + 1) _

theorem rebuildAux_none_of_missing (oldMap : List (String × ModelMeta)) (ms : List ModelState)
    (x : ModelState) (hx : x ∈ ms) (hmiss : alookup oldMap (lookupKey x) = none) :
    ∀ (i : Nat) (acc : List (String × ModelMeta)), rebuildAux oldMap ms i acc = none := by
  induction ms with
  | nil => simp at hx
  | cons m rest ih =>
    intro i acc
    rcases List.mem_cons.mp hx with h1 | h1
    · subst h1
      simp [rebuildAux, hmiss]
    · match hmeta : alookup oldMap (lookupKey m) with
      | none => simp [rebuildAux, hmeta]
      | some meta =>
        simp only [rebuildAux, hmeta]
        exact ih h1 (i + 1) _

theorem find?_id_append_last (ms : List ModelState) (m1 : ModelState) (i : Nat)
    (h : ∀ x ∈ ms, x.id ≠ i) (hm : m1.id = i) :
    (ms ++ [m1]).find? (fun x => x.id == i) = some m1 := by
  induction ms with
  | nil => simp [List.find?, hm]
  | cons x rest ih =>
    have hx : (x.id == i) = false := by simp [h x (by simp)]
    simp only [List.cons_append, List.find?, hx]
    exact ih (fun y hy => h y (by simp [hy]))

/-! ### Claim theorems -/

/-- Claim C4: on a dirty Record and a dirty IndexedSet (with nobody
subscribed to their buses), `persist()` returns true, copies the current
state into the persisted snapshot (every field's current value for the
record; the current ordered pk sequence for the set), clears the dirty
flag and emits `persist`; a second `persist()` with no intervening
mutation returns false, leaves all state unchanged and emits nothing. -/
theorem claim_C4 (fuel : Nat) (w : World)
    (hRdirty : w.R.clean = false) (hSdirty : w.S.clean = false)
    (hRkeys : (akeys w.R.fields).Nodup)
    (hRbus : busQuiet w.R.ev = true) (hSbus : busQuiet w.S.ev = true) :
    (∃ wR, modelPersistW fuel w = some (wR, true, [(.recR, "persist")]) ∧
      wR.R.clean = true ∧
      (∀ k v, alookup w.R.fields k = some v → alookup wR.R.persisted k = some v) ∧
      wR.R.fields = w.R.fields ∧ wR.S = w.S ∧
      modelPersistW fuel wR = some (wR, false, [])) ∧
    (∃ wS, collPersistW fuel w = some (wS, true, [(.collS, "persist")]) ∧
      wS.S.clean = true ∧ wS.S.persisted = w.S.models.map modelPk ∧
      wS.S.models = w.S.models ∧ wS.R = w.R ∧
      collPersistW fuel wS = some (wS, false, [])) := by
  constructor
  · refine ⟨_, modelPersistW_dirty fuel w hRdirty hRbus, rfl, ?_, rfl, rfl, ?_⟩
    · intro k v hv
      exact alookup_foldl_aset w.R.fields w.R.persisted hRkeys k v hv
    · exact modelPersistW_clean fuel _ rfl
  · refine ⟨_, collPersistW_dirty fuel w hSdirty hSbus, rfl, rfl, rfl, rfl, ?_⟩
    exact collPersistW_clean fuel _ rfl

theorem claim_C4_witness :
    (∃ wR, modelPersistW 1 c8world = some (wR, true, [(.recR, "persist")]) ∧
      wR.R.clean = true ∧
      (∀ k v, alookup c8world.R.fields k = some v → alookup wR.R.persisted k = some v) ∧
      wR.R.fields = c8world.R.fields ∧ wR.S = c8world.S ∧
      modelPersistW 1 wR = some (wR, false, [])) ∧
    (∃ wS, collPersistW 1 c8world = some (wS, true, [(.collS, "persist")]) ∧
      wS.S.clean = true ∧ wS.S.persisted = c8world.S.models.map modelPk ∧
      wS.S.models = c8world.S.models ∧ wS.R = c8world.R ∧
      collPersistW 1 wS = some (wS, false, [])) :=
  claim_C4 1 c8world (by decide) (by decide) (by decide) (by decide) (by decide)

/-- Claim C7 is false as stated: on a bus with two `"foo"` subscriptions
(handles 1 and 2), `off("foo", 99)` with the unregistered handle 99 is not
a no-op — the splice over `indexOf = -1` removes the last subscription, so
a subsequent `trigger("foo")` invokes only the first callback. -/
theorem claim_C7_counterexample :
    ((alookup c7bus.map "foo").getD []).contains 99 = false ∧
    eventsOff c7bus "foo" 99 ≠ c7bus ∧
    triggerInvoked (eventsOff c7bus "foo" 99) "foo" ≠ triggerInvoked c7bus "foo" := by
  decide

/-- Claim C7 (amended): `off(name, handle)` where `name` has no
subscription list raises no error and is a complete no-op.  Where `name`
has a list that does not contain `handle`, `off` raises no error but is
not a no-op: it removes the list's last entry (a no-op only when the list
is empty) and deletes `handle` from the callback table. -/
theorem claim_C7 (e : EventsState) (name : String) (h : Nat) :
    (alookup e.map name = none → eventsOff e name h = e) ∧
    (∀ evts, alookup e.map name = some evts → h ∉ evts →
      eventsOff e name h =
        { e with map := aset e.map name evts.dropLast, events := adel e.events h }) := by
  constructor
  · intro h1
    simp [eventsOff, h1]
  · intro evts h1 h2
    simp only [eventsOff, h1]
    rw [jsIndexOf_not_mem evts h h2, jsSpliceDelete_neg_one]

theorem claim_C7_witness :
    eventsOff c7bus "bar" 99 = c7bus ∧
    eventsOff c7bus "foo" 99 =
      { c7bus with map := aset c7bus.map "foo" [1], events := adel c7bus.events 99 } := by
  constructor
  · exact (claim_C7 c7bus "bar" 99).1 (by decide)
  · have h := (claim_C7 c7bus "foo" 99).2 [1, 2] (by decide) (by decide)
    simpa using h

/-- Claim C8 is false as stated: on a fresh `FooModel`-shaped record,
`get` of the undeclared field `"zzz"` does not fail with `UnknownField` —
it returns `undefined` — and `set("zzz", 7)` does not fail either: it
silently creates the field and stores the value. -/
theorem claim_C8_counterexample :
    modelGet c8world.R "zzz" = Value.undef ∧
    (modelSetW 1 c8world "zzz" (.vnum 7)).isSome = true ∧
    ((modelSetW 1 c8world "zzz" (.vnum 7)).map (fun p => alookup p.1.R.fields "zzz")) =
      some (some (.vnum 7)) := by
  decide

/-- Claim C8 (amended): neither `get` nor `set` performs a declared-field
check, and there is no `UnknownField` failure.  `get` of a field that was
never declared or set returns `undefined`; `set` of a non-entity value on
such a field silently creates it, marks the record dirty, and emits
`change` and `change:<name>` as usual.  The only failing case is `set` of
an entity value on a field with no `mappedEvents` entry, which dies with a
generic `TypeError` (`this.mappedEvents[property].push` on `undefined`),
not a structured `UnknownField`. -/
theorem claim_C8 (fuel : Nat) (w : World) (name : String) (value : Value)
    (hfld : alookup w.R.fields name = none)
    (hmev : alookup w.R.mappedEvents name = none)
    (hbus : busQuiet w.R.ev = true) :
    modelGet w.R name = Value.undef ∧
    (isEntity value = false →
      modelSetW fuel w name value =
        some ({ w with R := { w.R with fields := aset w.R.fields name value, clean := false } },
              [(.recR, "change"), (.recR, "change:" ++ name)])) ∧
    (isEntity value = true → modelSetW fuel w name value = none) := by
  refine ⟨by simp [modelGet, hfld], ?_, ?_⟩
  · intro hv
    have hcur : isEntity (modelGet w.R name) = false := by
      simp [modelGet, hfld, isEntity]
    simp only [modelSetW, hcur, Bool.false_eq_true, if_false, hv]
    simp [trigger_quiet_R, hbus]
  · intro hv
    have hcur : isEntity (modelGet w.R name) = false := by
      simp [modelGet, hfld, isEntity]
    simp [modelSetW, hcur, hv, hmev]

theorem claim_C8_witness :
    modelGet c8world.R "zzz" = Value.undef ∧
    (modelSetW 1 c8world "zzz" (.vnum 7)).isSome = true ∧
    modelSetW 1 c8world "zzz" Value.vcoll = none := by
  have h1 := claim_C8 1 c8world "zzz" (.vnum 7) (by decide) (by decide) (by decide)
  have h2 := claim_C8 1 c8world "zzz" Value.vcoll (by decide) (by decide) (by decide)
  refine ⟨h1.1, ?_, h2.2.2 (by decide)⟩
  rw [h1.2.1 (by decide)]
  rfl

/-- Claim C6 is false as stated: in a set whose `persistedKeys` are
`["9"]`, adding `mA` (pk `"1"`) and then firing `mA`'s `change` event runs
the add-installed handler, and although `"1"` is absent from
`persistedKeys`, the handler does not leave them unchanged — the splice
over `indexOf = -1` drops the last entry, leaving `[]`. -/
theorem claim_C6_counterexample :
    c6world.S.persisted = [.vstr "9"] ∧
    ((trigger 1 c6world (.member 1) "change").map (fun p => p.1.S.persisted)) = some [] := by
  decide

/-- Claim C6 (amended): for a member added via `add` (a fresh record with
an empty bus and a fresh reference), `add` subscribes handle 1 on the
member's `change` event with the set's member-change handler; when the
member fires `change`, the handler marks the set dirty, removes the first
occurrence of the member's pk from `persistedKeys` when it is present —
but when that pk is absent it removes the LAST entry of `persistedKeys`
(leaving them unchanged only when they are empty) — and emits `change` on
the set. -/
theorem claim_C6 (fuel : Nat) (w : World) (m : ModelState)
    (hSbus : busQuiet w.S.ev = true)
    (hmev : m.ev = {})
    (hid : ∀ x ∈ w.S.models, x.id ≠ m.id) :
    ∃ w1 m1, collAddW fuel w m = some (w1, [(.collS, "change"), (.collS, "append")]) ∧
      memberFind w1 m.id = some m1 ∧
      alookup m1.ev.map "change" = some [1] ∧
      alookup m1.ev.events 1 = some (.memberChange m.id) ∧
      w1.S.persisted = w.S.persisted ∧
      (∀ f2, trigger (f2 + 1) w1 (.member m.id) "change" =
        some ({ w1 with S := { w1.S with clean := false, persisted := if modelPk m ∈ w.S.persisted then w.S.persisted.erase (modelPk m) else w.S.persisted.dropLast } }, [(.member m.id, "change"), (.collS, "change")])) := by
  refine ⟨{ w with S := { w.S with models := w.S.models ++ [{ m with ev := { eventIndex := 2, map := [("change", [1]), ("change:pk", [2])], events := [(1, .memberChange m.id), (2, .memberChangePK)] } }], modelMap := aset w.S.modelMap (mkey m) { index := w.S.models.length, change := 1, changePK := 2 }, clean := false } },
    { m with ev := { eventIndex := 2, map := [("change", [1]), ("change:pk", [2])], events := [(1, .memberChange m.id), (2, .memberChangePK)] } }, ?_, ?_, ?_, ?_, ?_, ?_⟩
  case _ =>
    simp [collAddW, hmev, trigger_quiet_S, hSbus, eventsOn, alookup, aset]
  case _ =>
    exact find?_id_append_last w.S.models _ m.id hid rfl
  case _ => simp [alookup]
  case _ => simp [alookup]
  case _ => rfl
  case _ =>
    intro f2
    have hfind : memberFind { w with S := { w.S with models := w.S.models ++ [{ m with ev := { eventIndex := 2, map := [("change", [1]), ("change:pk", [2])], events := [(1, .memberChange m.id), (2, .memberChangePK)] } }], modelMap := aset w.S.modelMap (mkey m) { index := w.S.models.length, change := 1, changePK := 2 }, clean := false } } m.id = some { m with ev := { eventIndex := 2, map := [("change", [1]), ("change:pk", [2])], events := [(1, .memberChange m.id), (2, .memberChangePK)] } } :=
      find?_id_append_last w.S.models _ m.id hid rfl
    have hsplice : jsSpliceDelete w.S.persisted (jsIndexOf w.S.persisted (modelPk m)) = (if modelPk m ∈ w.S.persisted then w.S.persisted.erase (modelPk m) else w.S.persisted.dropLast) := by
      by_cases hmem : modelPk m ∈ w.S.persisted
      · rw [if_pos hmem, jsSpliceDelete_indexOf_mem w.S.persisted (modelPk m) hmem]
      · rw [if_neg hmem, jsIndexOf_not_mem w.S.persisted (modelPk m) hmem,
          jsSpliceDelete_neg_one]
    simp only [trigger, runTrig, runList, busOf, hfind, Option.map_some, Option.getD_some,
      Option.bind_eq_bind, Option.some_bind, alookup, execCb]
    have hpk1 : modelPk { m with ev := ({ eventIndex := 2, map := [("change", [1]), ("change:pk", [2])], events := [(1, Cb.memberChange m.id), (2, Cb.memberChangePK)] } : EventsState) } = modelPk m := rfl
    have hb : ∀ nm, (alookup w.S.ev.map nm).getD [] = [] := fun nm => allEmpty_lookup _ nm hSbus
    simp [hfind, hpk1, hsplice, hb, runList]

theorem claim_C6_witness :
    ∃ w1 m1, collAddW 1 c6base mA = some (w1, [(.collS, "change"), (.collS, "append")]) ∧
      memberFind w1 mA.id = some m1 ∧
      alookup m1.ev.map "change" = some [1] ∧
      alookup m1.ev.events 1 = some (.memberChange mA.id) ∧
      w1.S.persisted = c6base.S.persisted ∧
      (∀ f2, trigger (f2 + 1) w1 (.member mA.id) "change" =
        some ({ w1 with S := { w1.S with clean := false, persisted := if modelPk mA ∈ c6base.S.persisted then c6base.S.persisted.erase (modelPk mA) else c6base.S.persisted.dropLast } }, [(.member mA.id, "change"), (.collS, "change")])) :=
  claim_C6 1 c6base mA (by decide) (by decide) (by decide)
/-- Claim C9 is false as stated: it claims `remove(r)` of a non-member
"does not fail" and drops the last entry of non-empty `persistedKeys`.
But (i) for the non-member `c9strayCollide`, whose pk collides with a
remaining member's pk, `delete modelMap[r.pk]` destroys that member's
entry and the rebuild throws; and (ii) when the non-member's pk happens
to be IN `persistedKeys`, that entry (not the last one) is removed:
from `["zz", "2"]`, removing the stray with pk `"zz"` leaves `["2"]`,
not `["zz", "2"].dropLast = ["zz"]`. -/
theorem claim_C9_counterexample :
    collRemoveW 1 c9world c9strayCollide = none ∧
    ((collRemoveW 1 { c9world with S := { c9world.S with persisted := [.vstr "zz", .vstr "2"] } } c9stray).map (fun p => p.1.S.persisted)) = some [.vstr "2"] ∧
    [Value.vstr "zz", Value.vstr "2"].dropLast ≠ [Value.vstr "2"] := by
  decide

/-- Claim C9 (amended): for a non-empty, invariant-satisfying set and a
non-member record `r` whose pk neither collides with a member's pk nor
occurs in `persistedKeys`, `remove(r)` does not fail and does not leave
the set unchanged: because `indexOf` returns `-1` and `splice(-1, 1)`
deletes the final element, it removes the set's last member from `items`
(and, when `persistedKeys` is non-empty, its last entry), marks the set
dirty, and emits `change` and `remove`. -/
theorem claim_C9 (fuel : Nat) (w : World) (r : ModelState)
    (hgood : goodCollB w.S = true) (hbus : busQuiet w.S.ev = true)
    (_hne : w.S.models ≠ [])
    (hidr : ∀ x ∈ w.S.models, x.id ≠ r.id)
    (hkey : mkey r ∉ w.S.models.map mkey)
    (hpk : modelPk r ∉ w.S.persisted) :
    ∃ w', collRemoveW fuel w r = some (w', [(.collS, "change"), (.collS, "remove")]) ∧
      w'.S.models = w.S.models.dropLast ∧
      w'.S.persisted = w.S.persisted.dropLast ∧
      w'.S.clean = false ∧ w'.R = w.R := by
  have h1 : jsIndexOf (w.S.models.map (fun x => x.id)) r.id = -1 := by
    apply jsIndexOf_not_mem
    intro hmem
    obtain ⟨x, hx, hxe⟩ := List.mem_map.mp hmem
    exact hidr x hx hxe
  have h2 : jsIndexOf w.S.persisted (modelPk r) = -1 := jsIndexOf_not_mem _ _ hpk
  have hreb : ∀ x ∈ w.S.models.dropLast,
      (alookup (adel w.S.modelMap (mkey r)) (lookupKey x)).isSome = true := by
    intro x hx
    have hxm : x ∈ w.S.models := (List.dropLast_sublist w.S.models).mem hx
    rw [goodCollB_stable w.S hgood x hxm]
    have hxkne : mkey x ≠ mkey r := fun hc => hkey (hc ▸ List.mem_map_of_mem mkey hxm)
    rw [alookup_adel_ne _ _ _ hxkne]
    obtain ⟨meta, hm⟩ := goodCollB_lookup w.S hgood x hxm
    simp [hm]
  simp only [collRemoveW, h1, h2, jsSpliceDelete_neg_one]
  have hsome := rebuildAux_isSome (adel w.S.modelMap (mkey r)) w.S.models.dropLast hreb 0 []
  obtain ⟨nm, hnm⟩ := Option.isSome_iff_exists.mp hsome
  simp only [rebuildMap]
  rw [hnm]
  refine ⟨{ w with S := { w.S with modelMap := nm, models := w.S.models.dropLast, persisted := w.S.persisted.dropLast, clean := false } }, ?_, rfl, rfl, rfl, rfl⟩
  simp [trigger_quiet_S, hbus]

theorem jsSpliceInsert_length {α : Type} (l : List α) (n : Nat) (x : α) (h : n ≤ l.length) :
    (jsSpliceInsert l n x).length = l.length + 1 := by
  simp [jsSpliceInsert, List.length_take, List.length_drop]
  omega

theorem jsSpliceInsert_getElem_self {α : Type} (l : List α) (n : Nat) (x : α) (h : n ≤ l.length) :
    (jsSpliceInsert l n x)[n]? = some x := by
  simp only [jsSpliceInsert, List.getElem?_append, List.length_take, Nat.min_eq_left h]
  rw [if_neg (by omega)]
  simp [Nat.sub_self]

theorem jsSpliceInsert_eraseIdx {α : Type} (l : List α) (n : Nat) (x : α) (h : n ≤ l.length) :
    (jsSpliceInsert l n x).eraseIdx n = l := by
  simp only [jsSpliceInsert, List.eraseIdx_eq_take_drop_succ]
  rw [List.take_left' (by simp [List.length_take, Nat.min_eq_left h])]
  rw [show n + 1 = (List.take n l).length + 1 from by simp [List.length_take, Nat.min_eq_left h]]
  rw [List.drop_append 1]
  simp [List.take_append_drop]

theorem jsSpliceInsert_mem {α : Type} (l : List α) (n : Nat) (x y : α)
    (h : y ∈ jsSpliceInsert l n x) : y = x ∨ y ∈ l := by
  simp only [jsSpliceInsert] at h
  rcases List.mem_append.mp h with h1 | h1
  · exact Or.inr ((List.take_sublist n l).mem h1)
  · rcases List.mem_cons.mp h1 with h2 | h2
    · exact Or.inl h2
    · exact Or.inr ((List.drop_sublist n l).mem h2)

theorem moveClamp_eq_specClamp (i : Nat) (off : Int) (n : Nat) :
    (if ((i : Int) + off) < 0 then (0 : Nat) else if ((i : Int) + off) > (n : Int) - 1 then n - 1 else ((i : Int) + off).toNat) = specClamp i off n := by
  simp only [specClamp]
  by_cases h1 : ((i : Int) + off) < 0
  · rw [if_pos h1]; omega
  · rw [if_neg h1]
    by_cases h2 : ((i : Int) + off) > (n : Int) - 1
    · rw [if_pos h2]; omega
    · rw [if_neg h2]; omega

theorem claim_C9_witness :
    ∃ w', collRemoveW 1 c9world c9stray = some (w', [(.collS, "change"), (.collS, "remove")]) ∧
      w'.S.models = c9world.S.models.dropLast ∧
      w'.S.persisted = c9world.S.persisted.dropLast ∧
      w'.S.clean = false ∧ w'.R = c9world.R :=
  claim_C9 1 c9world c9stray (by decide) (by decide) (by decide) (by decide) (by decide)
    (by decide)

/-- Claim C5: for every invariant-satisfying set (nobody subscribed to its
bus) and every valid source index `i`, `moveAt(i, offset)` reinserts the
record at position `clamp(i + offset, 0, n-1)` as a genuine reorder (the
remaining records keep their relative order), with no failure for any
offset, and emits `change`; in particular on the 4-member set `[A,B,C,D]`,
`move(B, -3)` yields `[B,A,C,D]` and `move(B, +3)` yields `[A,C,D,B]`. -/
theorem claim_C5 (fuel : Nat) (w : World) (i : Nat) (off : Int)
    (hgood : goodCollB w.S = true) (hbus : busQuiet w.S.ev = true)
    (hi : i < w.S.models.length) :
    (∃ m w', w.S.models[i]? = some m ∧
      collMoveAtW fuel w i off = some (w', [(.collS, "change")]) ∧
      w'.S.models.length = w.S.models.length ∧
      w'.S.models[specClamp i off w.S.models.length]? = some m ∧
      w'.S.models.eraseIdx (specClamp i off w.S.models.length) = w.S.models.eraseIdx i ∧
      w'.R = w.R ∧ w'.S.persisted = w.S.persisted) ∧
    (collMoveW 1 w4 mB (-3)).map (fun p => p.1.S.models.map mkey) = some ["2", "1", "3", "4"] ∧
    (collMoveW 1 w4 mB 3).map (fun p => p.1.S.models.map mkey) = some ["1", "3", "4", "2"] := by
  refine ⟨?_, by decide, by decide⟩
  obtain ⟨m, hm⟩ : ∃ m, w.S.models[i]? = some m := ⟨w.S.models[i], List.getElem?_eq_getElem hi⟩
  have hle : specClamp i off w.S.models.length ≤ w.S.models.length - 1 := by
    simp only [specClamp]
    omega
  have hlen1 : (w.S.models.eraseIdx i).length = w.S.models.length - 1 := by
    rw [List.length_eraseIdx, if_pos hi]
  have hle2 : specClamp i off w.S.models.length ≤ (w.S.models.eraseIdx i).length := by omega
  have hreb : ∀ x ∈ jsSpliceInsert (w.S.models.eraseIdx i) (specClamp i off w.S.models.length) m,
      (alookup w.S.modelMap (lookupKey x)).isSome = true := by
    intro x hx
    have hxm : x ∈ w.S.models := by
      rcases jsSpliceInsert_mem _ _ _ _ hx with h1 | h1
      · exact h1 ▸ List.getElem?_mem hm
      · exact (List.eraseIdx_sublist _ i).mem h1
    rw [goodCollB_stable w.S hgood x hxm]
    obtain ⟨meta, hmm⟩ := goodCollB_lookup w.S hgood x hxm
    simp [hmm]
  have hsome := rebuildAux_isSome w.S.modelMap _ hreb 0 []
  obtain ⟨nm, hnm⟩ := Option.isSome_iff_exists.mp hsome
  refine ⟨m, { w with S := { w.S with models := jsSpliceInsert (w.S.models.eraseIdx i) (specClamp i off w.S.models.length) m, modelMap := nm } }, hm, ?_, ?_, ?_, ?_, rfl, rfl⟩
  · simp only [collMoveAtW, hm, Option.bind_eq_bind, Option.some_bind,
      moveClamp_eq_specClamp, rebuildMap]
    rw [hnm]
    simp [trigger_quiet_S, hbus]
  · rw [jsSpliceInsert_length _ _ _ hle2]
    omega
  · exact jsSpliceInsert_getElem_self _ _ _ hle2
  · exact jsSpliceInsert_eraseIdx _ _ _ hle2

theorem claim_C5_witness :
    (∃ m w', w4.S.models[1]? = some m ∧
      collMoveAtW 1 w4 1 (-3) = some (w', [(.collS, "change")]) ∧
      w'.S.models.length = w4.S.models.length ∧
      w'.S.models[specClamp 1 (-3) w4.S.models.length]? = some m ∧
      w'.S.models.eraseIdx (specClamp 1 (-3) w4.S.models.length) = w4.S.models.eraseIdx 1 ∧
      w'.R = w4.R ∧ w'.S.persisted = w4.S.persisted) ∧
    (collMoveW 1 w4 mB (-3)).map (fun p => p.1.S.models.map mkey) = some ["2", "1", "3", "4"] ∧
    (collMoveW 1 w4 mB 3).map (fun p => p.1.S.models.map mkey) = some ["1", "3", "4", "2"] :=
  claim_C5 1 w4 1 (-3) (by decide) (by decide) (by decide)

/-- Claim C2: assigning the Entity value (the collection) to a declared,
previously non-Entity record field subscribes the record to the
collection's `change` event (handle 1, callback `modelFieldSub f`); after
`persist()` the record is clean, and then adding a member to the
collection runs the subscribed callback, which marks the record dirty
again and re-emits `change` and `change:<f>` on the record. -/
theorem claim_C2 (fuel : Nat) (rid : Nat) (fns : List String)
    (flds per : List (String × Value)) (mev : List (String × List Nat)) (b : Bool)
    (mm : List (String × ModelMeta)) (ms : List ModelState) (ps : List Value) (sb : Bool)
    (m : ModelState) (f : String) (cur : Value)
    (h1 : alookup flds f = some cur) (h2 : isEntity cur = false)
    (h3 : alookup mev f = some []) :
    ∃ w1 w2,
      modelSetW fuel (plainWorld rid fns flds mev per b mm ms ps sb) f Value.vcoll = some (w1, [(.recR, "change"), (.recR, "change:" ++ f)]) ∧
      alookup w1.S.ev.map "change" = some [1] ∧
      alookup w1.S.ev.events 1 = some (.modelFieldSub f) ∧
      modelGet w1.R f = Value.vcoll ∧
      modelPersistW fuel w1 = some (w2, true, [(.recR, "persist")]) ∧
      w2.R.clean = true ∧
      (collAddW (fuel + 1) w2 m).map (fun p => p.2) = some [(.collS, "change"), (.recR, "change"), (.recR, "change:" ++ f), (.collS, "append")] ∧
      (collAddW (fuel + 1) w2 m).map (fun p => p.1.R.clean) = some false := by
  refine ⟨{ R := { id := rid, fieldNames := fns, fields := aset flds f Value.vcoll, mappedEvents := aset mev f [1], persisted := per, clean := false, ev := {} }, S := { index := 0, modelMap := mm, models := ms, persisted := ps, clean := sb, ev := { eventIndex := 1, map := [("change", [1])], events := [(1, .modelFieldSub f)] } } }, _,
    ?_, by simp [alookup], by simp [alookup], by simp [modelGet, alookup_aset_self],
    modelPersistW_dirty fuel _ rfl rfl, rfl, ?_, ?_⟩
  · simp [plainWorld, modelSetW, modelGet, h1, h2, h3, show isEntity Value.vcoll = true from rfl,
      eventsOn, alookup, aset, trigger, runTrig, runList, busOf]
  · simp [collAddW, trigger, runTrig, runList, busOf, alookup, execCb]
  · simp [collAddW, trigger, runTrig, runList, busOf, alookup, execCb]

theorem claim_C2_witness :
    ∃ w1 w2,
      modelSetW 1 (plainWorld 0 ["pk", "foos"] [("pk", .vstr "r"), ("foos", .undef)] [("pk", []), ("foos", [])] [("pk", .undef), ("foos", .undef)] false [] [] [] false) "foos" Value.vcoll = some (w1, [(.recR, "change"), (.recR, "change:" ++ "foos")]) ∧
      alookup w1.S.ev.map "change" = some [1] ∧
      alookup w1.S.ev.events 1 = some (.modelFieldSub "foos") ∧
      modelGet w1.R "foos" = Value.vcoll ∧
      modelPersistW 1 w1 = some (w2, true, [(.recR, "persist")]) ∧
      w2.R.clean = true ∧
      (collAddW (1 + 1) w2 mA).map (fun p => p.2) = some [(.collS, "change"), (.recR, "change"), (.recR, "change:" ++ "foos"), (.collS, "append")] ∧
      (collAddW (1 + 1) w2 mA).map (fun p => p.1.R.clean) = some false :=
  claim_C2 1 0 ["pk", "foos"] [("pk", .vstr "r"), ("foos", .undef)] [("pk", .undef), ("foos", .undef)] [("pk", []), ("foos", [])] false [] [] [] false mA "foos" .undef (by decide) (by decide) (by decide)

/-- Claim C3: after the record's Entity-valued field is reassigned to a
non-Entity value, `set` unsubscribes the tracked handle from the
collection's `change` list (which becomes empty, its callback deleted);
after `persist()`, adding a member to the collection (and, more
generally, any event triggered on the collection) leaves the record —
its clean flag, fields, and persisted snapshot — completely unchanged
and fires no event on the record. -/
theorem claim_C3 (fuel : Nat) (rid : Nat) (fns : List String)
    (flds per : List (String × Value)) (mev : List (String × List Nat)) (b : Bool)
    (mm : List (String × ModelMeta)) (ms : List ModelState) (ps : List Value) (sb : Bool)
    (m : ModelState) (f : String) (cur v : Value)
    (h1 : alookup flds f = some cur) (h2 : isEntity cur = false)
    (h3 : alookup mev f = some []) (hv : isEntity v = false) :
    ∃ w1 w2 w3,
      modelSetW fuel (plainWorld rid fns flds mev per b mm ms ps sb) f Value.vcoll = some (w1, [(.recR, "change"), (.recR, "change:" ++ f)]) ∧
      modelSetW fuel w1 f v = some (w2, [(.recR, "change"), (.recR, "change:" ++ f)]) ∧
      alookup w2.S.ev.map "change" = some [] ∧
      w2.S.ev.events = [] ∧
      modelPersistW fuel w2 = some (w3, true, [(.recR, "persist")]) ∧
      w3.R.clean = true ∧
      (collAddW (fuel + 1) w3 m).map (fun p => p.2) = some [(.collS, "change"), (.collS, "append")] ∧
      (collAddW (fuel + 1) w3 m).map (fun p => p.1.R) = some w3.R ∧
      (∀ name f2, trigger f2 w3 .collS name = some (w3, [(.collS, name)])) := by
  refine ⟨{ R := { id := rid, fieldNames := fns, fields := aset flds f Value.vcoll, mappedEvents := aset mev f [1], persisted := per, clean := false, ev := {} }, S := { index := 0, modelMap := mm, models := ms, persisted := ps, clean := sb, ev := { eventIndex := 1, map := [("change", [1])], events := [(1, .modelFieldSub f)] } } },
    { R := { id := rid, fieldNames := fns, fields := aset (aset flds f Value.vcoll) f v, mappedEvents := aset (aset mev f [1]) f [], persisted := per, clean := false, ev := {} }, S := { index := 0, modelMap := mm, models := ms, persisted := ps, clean := sb, ev := { eventIndex := 1, map := [("change", [])], events := [] } } }, _,
    ?_, ?_, by simp [alookup], rfl,
    modelPersistW_dirty fuel _ rfl rfl, rfl, ?_, ?_, ?_⟩
  · simp [plainWorld, modelSetW, modelGet, h1, h2, h3, show isEntity Value.vcoll = true from rfl,
      eventsOn, alookup, aset, trigger, runTrig, runList, busOf]
  · simp [modelSetW, modelGet, alookup_aset_self, show isEntity Value.vcoll = true from rfl, hv,
      eventsOff, eventsOn, alookup, aset, adel, jsIndexOf, jsSpliceDelete, trigger, runTrig,
      runList, busOf]
  · simp [collAddW, trigger, runTrig, runList, busOf, alookup]
  · simp [collAddW, trigger, runTrig, runList, busOf, alookup]
  · intro name f2
    apply trigger_nil
    show (alookup [("change", [])] name).getD [] = []
    by_cases h : ("change" == name) = true
    · simp [alookup, h]
    · simp [alookup, h]

theorem claim_C3_witness :
    ∃ w1 w2 w3,
      modelSetW 1 (plainWorld 0 ["pk", "foos"] [("pk", .vstr "r"), ("foos", .undef)] [("pk", []), ("foos", [])] [("pk", .undef), ("foos", .undef)] false [] [] [] false) "foos" Value.vcoll = some (w1, [(.recR, "change"), (.recR, "change:" ++ "foos")]) ∧
      modelSetW 1 w1 "foos" Value.undef = some (w2, [(.recR, "change"), (.recR, "change:" ++ "foos")]) ∧
      alookup w2.S.ev.map "change" = some [] ∧
      w2.S.ev.events = [] ∧
      modelPersistW 1 w2 = some (w3, true, [(.recR, "persist")]) ∧
      w3.R.clean = true ∧
      (collAddW (1 + 1) w3 mA).map (fun p => p.2) = some [(.collS, "change"), (.collS, "append")] ∧
      (collAddW (1 + 1) w3 mA).map (fun p => p.1.R) = some w3.R ∧
      (∀ name f2, trigger f2 w3 .collS name = some (w3, [(.collS, name)])) :=
  claim_C3 1 0 ["pk", "foos"] [("pk", .vstr "r"), ("foos", .undef)] [("pk", .undef), ("foos", .undef)] [("pk", []), ("foos", [])] false [] [] [] false mA "foos" .undef .undef (by decide) (by decide) (by decide) (by decide)

/-- Claim C10: `rebuildMap` reads the previous index entry keyed by the
member's persisted pk, falling back to its current pk.  For a member that
has never been persisted (persisted pk still `undefined`), assigning it a
fresh new pk makes this lookup key the NEW pk, the lookup finds no entry,
and the rebuild fails (`newMap[m.pk].index` on `undefined`) instead of
producing a valid index entry; end-to-end, setting a fresh pk on the
never-persisted member 2 of the two-member collection dies in the
`change:pk` handler. -/
theorem claim_C10 (oldMap : List (String × ModelMeta)) (pre post : List ModelState)
    (m : ModelState) (pkNew : Value) (ps : List Value) (cb : Bool) (e : EventsState)
    (hPers : (alookup m.persisted "pk").getD Value.undef = Value.undef)
    (hFresh : alookup oldMap (valueKey pkNew) = none) :
    lookupKey { m with fields := aset m.fields "pk" pkNew } = valueKey pkNew ∧
    alookup oldMap (lookupKey { m with fields := aset m.fields "pk" pkNew }) = none ∧
    (∀ (i : Nat) (acc : List (String × ModelMeta)),
      rebuildAux oldMap (pre ++ { m with fields := aset m.fields "pk" pkNew } :: post) i acc = none) ∧
    rebuildMap { index := 0, modelMap := oldMap, models := pre ++ { m with fields := aset m.fields "pk" pkNew } :: post, persisted := ps, clean := cb, ev := e } = none ∧
    memberSetW 1 c9world 2 "pk" (.vstr "7") = none := by
  have hlk : lookupKey { m with fields := aset m.fields "pk" pkNew } = valueKey pkNew := by
    simp [lookupKey, hPers, jsOr, truthy, modelPk, modelGet, alookup_aset_self]
  have hnone : ∀ (i : Nat) (acc : List (String × ModelMeta)),
      rebuildAux oldMap (pre ++ { m with fields := aset m.fields "pk" pkNew } :: post) i acc = none :=
    rebuildAux_none_of_missing oldMap
      (pre ++ { m with fields := aset m.fields "pk" pkNew } :: post)
      { m with fields := aset m.fields "pk" pkNew }
      (by simp) (by rw [hlk]; exact hFresh)
  refine ⟨hlk, by rw [hlk]; exact hFresh, hnone, ?_, by decide⟩
  simp only [rebuildMap]
  exact hnone 0 []

theorem claim_C10_witness :
    lookupKey { mA with fields := aset mA.fields "pk" (.vstr "7") } = valueKey (.vstr "7") ∧
    alookup [("1", ModelMeta.mk 0 1 2)] (lookupKey { mA with fields := aset mA.fields "pk" (.vstr "7") }) = none ∧
    (∀ (i : Nat) (acc : List (String × ModelMeta)),
      rebuildAux [("1", ModelMeta.mk 0 1 2)] ([] ++ { mA with fields := aset mA.fields "pk" (.vstr "7") } :: []) i acc = none) ∧
    rebuildMap { index := 0, modelMap := [("1", ModelMeta.mk 0 1 2)], models := [] ++ { mA with fields := aset mA.fields "pk" (.vstr "7") } :: [], persisted := [], clean := false, ev := {} } = none ∧
    memberSetW 1 c9world 2 "pk" (.vstr "7") = none :=
  claim_C10 [("1", ModelMeta.mk 0 1 2)] [] [] mA (.vstr "7") [] false {} (by decide) (by decide)

/-! ### Lemmas towards the preservation of the collection invariant -/

theorem getElem_decomp {α : Type} (l : List α) (i : Nat) (x : α) (h : l[i]? = some x) :
    l = l.take i ++ x :: l.drop (i + 1) := by
  induction l generalizing i with
  | nil => simp at h
  | cons y rest ih =>
    match i with
    | 0 =>
      simp only [List.getElem?_cons_zero, Option.some_inj] at h
      simp [h]
    | i + 1 =>
      simp only [List.getElem?_cons_succ] at h
      simp only [List.take_succ_cons, List.drop_succ_cons, List.cons_append, List.cons.injEq,
        true_and]
      exact ih i h

theorem mem_akeys_iff {κ β : Type} (l : List (κ × β)) (k : κ) :
    k ∈ akeys l ↔ ∃ v, (k, v) ∈ l := by
  simp only [akeys, List.mem_map]
  constructor
  · rintro ⟨kv, hkv, rfl⟩
    exact ⟨kv.2, hkv⟩
  · rintro ⟨v, hv⟩
    exact ⟨(k, v), hv, rfl⟩

theorem alookup_of_mem_nodup {κ β : Type} [BEq κ] [LawfulBEq κ] (l : List (κ × β))
    (hnd : (akeys l).Nodup) (kv : κ × β) (h : kv ∈ l) : alookup l kv.1 = some kv.2 := by
  induction l with
  | nil => simp at h
  | cons kv0 rest ih =>
    simp only [akeys, List.map_cons, List.nodup_cons] at hnd
    rcases List.mem_cons.mp h with h1 | h1
    · subst h1
      simp [alookup]
    · have hk : kv0.1 ≠ kv.1 := by
        intro hc
        exact hnd.1 (hc ▸ ((mem_akeys_iff rest kv.1).mpr ⟨kv.2, h1⟩))
      have hkb : (kv0.1 == kv.1) = false := by simpa using hk
      rw [alookup, hkb]
      simp only [Bool.false_eq_true, if_false]
      exact ih (by simpa [akeys] using hnd.2) h1

theorem aset_not_mem_eq_append {κ β : Type} [BEq κ] [LawfulBEq κ] (l : List (κ × β)) (k : κ)
    (v : β) (h : k ∉ akeys l) : aset l k v = l ++ [(k, v)] := by
  induction l with
  | nil => simp [aset]
  | cons kv rest ih =>
    simp only [akeys, List.map_cons, List.mem_cons] at h
    push_neg at h
    have hkb : (kv.1 == k) = false := by simpa using Ne.symm h.1
    rw [aset, hkb]
    simp only [Bool.false_eq_true, if_false, List.cons_append, List.cons.injEq, true_and]
    exact ih (by simpa [akeys] using h.2)

theorem goodMapB_iff (c : CollState) :
    goodMapB c = true ↔
      ∀ kv ∈ c.modelMap, ∃ x, c.models[kv.2.index]? = some x ∧ mkey x = kv.1 := by
  simp only [goodMapB, List.all_eq_true]
  constructor
  · intro h kv hkv
    have := h kv hkv
    match hx : c.models[kv.2.index]? with
    | none => rw [hx] at this; simp at this
    | some x =>
      rw [hx] at this
      exact ⟨x, rfl, by simpa using this⟩
  · intro h kv hkv
    obtain ⟨x, hx1, hx2⟩ := h kv hkv
    rw [hx1]
    simpa using hx2

theorem goodCollB_iff (c : CollState) :
    goodCollB c = true ↔
      goodIdxB c.modelMap c.models 0 = true ∧ goodMapB c = true ∧
      (c.models.map mkey).Nodup ∧ (c.models.map (fun m => m.id)).Nodup ∧
      (akeys c.modelMap).Nodup ∧ (∀ x ∈ c.models, lookupKey x = mkey x) := by
  simp only [goodCollB, Bool.and_eq_true, decide_eq_true_eq, List.all_eq_true, stableKeyB,
    beq_iff_eq, and_assoc]

theorem goodCollB_mapkeys_sub (c : CollState) (h : goodCollB c = true) :
    ∀ k ∈ akeys c.modelMap, k ∈ c.models.map mkey := by
  intro k hk
  obtain ⟨v, hv⟩ := (mem_akeys_iff c.modelMap k).mp hk
  obtain ⟨x, hx1, hx2⟩ := (goodMapB_iff c).mp ((goodCollB_iff c).mp h).2.1 (k, v) hv
  have : mkey x = k := hx2
  exact this ▸ List.mem_map_of_mem mkey (List.getElem?_mem hx1)

theorem rebuildAux_spec (oldMap : List (String × ModelMeta)) :
    ∀ (ms : List ModelState) (i : Nat) (acc : List (String × ModelMeta)),
    (∀ x ∈ ms, lookupKey x = mkey x) →
    (∀ x ∈ ms, (alookup oldMap (mkey x)).isSome = true) →
    (ms.map mkey).Nodup →
    (akeys acc).Nodup →
    (∀ k ∈ akeys acc, k ∉ ms.map mkey) →
    ∃ nm, rebuildAux oldMap ms i acc = some nm ∧
      akeys nm = akeys acc ++ ms.map mkey ∧
      (∀ k, k ∉ ms.map mkey → alookup nm k = alookup acc k) ∧
      (∀ j x, ms[j]? = some x →
        ∃ meta0, alookup oldMap (mkey x) = some meta0 ∧
          alookup nm (mkey x) = some { meta0 with index := i + j }) := by
  intro ms
  induction ms with
  | nil =>
    intro i acc _ _ _ _ _
    exact ⟨acc, rfl, by simp, fun k _ => rfl, by simp⟩
  | cons x ms ih =>
    intro i acc hstable hlk hnd hacc hdisj
    have hx := hstable x (by simp)
    obtain ⟨meta0, hmeta0⟩ := Option.isSome_iff_exists.mp (hlk x (by simp))
    have hxacc : mkey x ∉ akeys acc := fun hc => hdisj _ hc (by simp)
    have hndc : mkey x ∉ ms.map mkey ∧ (ms.map mkey).Nodup :=
      List.nodup_cons.mp (by simpa using hnd)
    have hacc' : (akeys (aset acc (mkey x) { meta0 with index := i })).Nodup := by
      rw [akeys_aset_of_not_mem _ _ _ hxacc, List.nodup_append]
      refine ⟨hacc, by simp, ?_⟩
      intro a ha hb
      simp only [List.mem_singleton] at hb
      subst hb
      exact hxacc ha
    have hdisj' : ∀ k ∈ akeys (aset acc (mkey x) { meta0 with index := i }), k ∉ ms.map mkey := by
      intro k hk
      rw [akeys_aset_of_not_mem _ _ _ hxacc] at hk
      rcases List.mem_append.mp hk with hk1 | hk1
      · intro hc
        exact hdisj k hk1 (by simp [hc])
      · simp only [List.mem_singleton] at hk1
        subst hk1
        exact hndc.1
    obtain ⟨nm, h1, h2, h3, h4⟩ := ih (i + 1) (aset acc (mkey x) { meta0 with index := i })
      (fun y hy => hstable y (by simp [hy])) (fun y hy => hlk y (by simp [hy]))
      hndc.2 hacc' hdisj'
    refine ⟨nm, ?_, ?_, ?_, ?_⟩
    · rw [rebuildAux, hx, hmeta0]
      exact h1
    · rw [h2, akeys_aset_of_not_mem _ _ _ hxacc]
      simp [List.append_assoc]
    · intro k hk
      simp only [List.map_cons, List.mem_cons] at hk
      push_neg at hk
      rw [h3 k hk.2, alookup_aset_ne _ _ _ _ hk.1]
    · intro j y hj
      match j with
      | 0 =>
        simp only [List.getElem?_cons_zero, Option.some_inj] at hj
        obtain rfl := hj
        refine ⟨meta0, hmeta0, ?_⟩
        rw [h3 (mkey x) hndc.1, alookup_aset_self]
        simp
      | j + 1 =>
        simp only [List.getElem?_cons_succ] at hj
        obtain ⟨meta0', hm1, hm2⟩ := h4 j y hj
        refine ⟨meta0', hm1, ?_⟩
        rw [hm2]
        have : i + 1 + j = i + (j + 1) := by omega
        rw [this]

theorem goodCollB_of_rebuild (oldMap : List (String × ModelMeta)) (ms : List ModelState)
    (nm : List (String × ModelMeta)) (idx0 : Nat) (ps : List Value) (cbn : Bool)
    (e : EventsState)
    (hstable : ∀ x ∈ ms, lookupKey x = mkey x)
    (hlk : ∀ x ∈ ms, (alookup oldMap (mkey x)).isSome = true)
    (hnd : (ms.map mkey).Nodup)
    (hndid : (ms.map (fun x => x.id)).Nodup)
    (hre : rebuildAux oldMap ms 0 [] = some nm) :
    goodCollB { index := idx0, modelMap := nm, models := ms, persisted := ps, clean := cbn, ev := e } = true := by
  obtain ⟨nm', h1, h2, _, h4⟩ :=
    rebuildAux_spec oldMap ms 0 [] hstable hlk hnd (by simp [akeys]) (by simp [akeys])
  have hnmeq : nm' = nm := by
    rw [hre] at h1
    exact (Option.some.inj h1).symm
  subst hnmeq
  have hkeys : akeys nm' = ms.map mkey := by simpa [akeys] using h2
  rw [goodCollB_iff]
  refine ⟨?_, ?_, hnd, hndid, ?_, hstable⟩
  · rw [goodIdxB_iff]
    intro j x hj
    obtain ⟨meta0, _, hm2⟩ := h4 j x hj
    exact ⟨_, hm2, rfl⟩
  · rw [goodMapB_iff]
    intro kv hkv
    have hknodup : (akeys nm').Nodup := by rw [hkeys]; exact hnd
    have hlkv := alookup_of_mem_nodup nm' hknodup kv hkv
    have hk1 : kv.1 ∈ ms.map mkey := by
      rw [← hkeys]
      exact (mem_akeys_iff nm' kv.1).mpr ⟨kv.2, hkv⟩
    obtain ⟨x, hxm, hxk⟩ := List.mem_map.mp hk1
    obtain ⟨j, hj⟩ := List.getElem?_of_mem hxm
    obtain ⟨meta0, _, hm2⟩ := h4 j x hj
    rw [hxk, hlkv] at hm2
    have hv2 : kv.2 = { meta0 with index := 0 + j } := Option.some.inj hm2
    refine ⟨x, ?_, hxk⟩
    rw [hv2]
    simpa using hj
  · rw [hkeys]
    exact hnd

theorem jsSpliceDelete_models_by_id (ms : List ModelState) (m : ModelState)
    (hnd : (ms.map (fun x => x.id)).Nodup) (hm : m ∈ ms) :
    jsSpliceDelete ms (jsIndexOf (ms.map (fun x => x.id)) m.id) = ms.erase m ∧
    m ∉ ms.erase m := by
  induction ms with
  | nil => simp at hm
  | cons y rest ih =>
    have hndc : y.id ∉ rest.map (fun x => x.id) ∧ (rest.map (fun x => x.id)).Nodup :=
      List.nodup_cons.mp (by simpa using hnd)
    by_cases hy : y = m
    · subst hy
      have herase : (y :: rest).erase y = rest := by
        rw [List.erase_cons, if_pos (by simp)]
      constructor
      · simp only [List.map_cons, jsIndexOf, beq_self_eq_true, if_true]
        rw [jsSpliceDelete_nonneg _ _ (by norm_num), herase]
        simp [List.eraseIdx]
      · rw [herase]
        intro hc
        exact hndc.1 (List.mem_map_of_mem _ hc)
    · have hmr : m ∈ rest := by
        rcases List.mem_cons.mp hm with h | h
        · exact absurd h.symm hy
        · exact h
      have hidne : (y.id == m.id) = false := by
        simp only [beq_eq_false_iff_ne]
        intro hc
        exact hndc.1 (hc ▸ List.mem_map_of_mem (fun x => x.id) hmr)
      have hyb : (y == m) = false := by simp [hy]
      obtain ⟨ih1, ih2⟩ := ih hndc.2 hmr
      have hnn : 0 ≤ jsIndexOf (rest.map (fun x => x.id)) m.id :=
        jsIndexOf_mem_nonneg _ _ (List.mem_map_of_mem _ hmr)
      constructor
      · simp only [List.map_cons, jsIndexOf, hidne, Bool.false_eq_true, if_false]
        rw [if_neg (by omega), jsSpliceDelete_nonneg _ _ (by omega)]
        have htn : (jsIndexOf (rest.map (fun x => x.id)) m.id + 1).toNat =
            (jsIndexOf (rest.map (fun x => x.id)) m.id).toNat + 1 := by omega
        rw [htn, List.eraseIdx_cons_succ, List.erase_cons, if_neg (by simp [hy])]
        congr 1
        rw [jsSpliceDelete_nonneg _ _ hnn] at ih1
        exact ih1
      · rw [List.erase_cons, if_neg (by simp [hy])]
        intro hc
        rcases List.mem_cons.mp hc with h | h
        · exact hy h.symm
        · exact ih2 h

theorem collRemoveW_good (fuel : Nat) (w : World) (m : ModelState)
    (hgood : goodCollB w.S = true) (hbus : busQuiet w.S.ev = true)
    (hm : m ∈ w.S.models) :
    ∃ w' tr, collRemoveW fuel w m = some (w', tr) ∧ goodCollB w'.S = true ∧
      w'.S.ev = w.S.ev := by
  obtain ⟨g1, g2, g3, g4, g5, g6⟩ := (goodCollB_iff w.S).mp hgood
  obtain ⟨hsplice, hnotin⟩ := jsSpliceDelete_models_by_id w.S.models m g4 hm
  have hsub : (w.S.models.erase m).Sublist w.S.models := List.erase_sublist m w.S.models
  have hmem1 : ∀ x ∈ w.S.models.erase m, x ∈ w.S.models := fun x hx => hsub.mem hx
  have hkeyne : ∀ x ∈ w.S.models.erase m, mkey x ≠ mkey m := by
    intro x hx hc
    have hxeq := List.inj_on_of_nodup_map g3 (hmem1 x hx) hm hc
    exact hnotin (hxeq ▸ hx)
  have hstable1 : ∀ x ∈ w.S.models.erase m, lookupKey x = mkey x :=
    fun x hx => g6 x (hmem1 x hx)
  have hlk1 : ∀ x ∈ w.S.models.erase m,
      (alookup (adel w.S.modelMap (mkey m)) (mkey x)).isSome = true := by
    intro x hx
    rw [alookup_adel_ne _ _ _ (hkeyne x hx)]
    obtain ⟨meta, hmm⟩ := goodCollB_lookup w.S hgood x (hmem1 x hx)
    simp [hmm]
  have hnd1 : ((w.S.models.erase m).map mkey).Nodup := ((hsub.map mkey).nodup) g3
  have hndid1 : ((w.S.models.erase m).map (fun x => x.id)).Nodup :=
    ((hsub.map (fun x => x.id)).nodup) g4
  obtain ⟨nm, hre, _, _, _⟩ := rebuildAux_spec (adel w.S.modelMap (mkey m))
    (w.S.models.erase m) 0 [] hstable1 hlk1 hnd1 (by simp [akeys]) (by simp [akeys])
  refine ⟨{ w with S := { w.S with modelMap := nm, models := w.S.models.erase m, persisted := jsSpliceDelete w.S.persisted (jsIndexOf w.S.persisted (modelPk m)), clean := false } }, [(.collS, "change"), (.collS, "remove")], ?_, ?_, rfl⟩
  · simp only [collRemoveW, hsplice, rebuildMap]
    rw [hre]
    simp [trigger_quiet_S, hbus]
  · exact goodCollB_of_rebuild (adel w.S.modelMap (mkey m)) (w.S.models.erase m) nm
      w.S.index (jsSpliceDelete w.S.persisted (jsIndexOf w.S.persisted (modelPk m))) false
      w.S.ev hstable1 hlk1 hnd1 hndid1 hre

theorem collMoveAtW_good (fuel : Nat) (w : World) (i : Nat) (off : Int)
    (hgood : goodCollB w.S = true) (hbus : busQuiet w.S.ev = true)
    (hi : i < w.S.models.length) :
    ∃ w' tr, collMoveAtW fuel w i off = some (w', tr) ∧ goodCollB w'.S = true ∧
      w'.S.ev = w.S.ev := by
  obtain ⟨g1, g2, g3, g4, g5, g6⟩ := (goodCollB_iff w.S).mp hgood
  obtain ⟨m, hm⟩ : ∃ m, w.S.models[i]? = some m := ⟨w.S.models[i], List.getElem?_eq_getElem hi⟩
  have hperm2 : (jsSpliceInsert (w.S.models.eraseIdx i) (specClamp i off w.S.models.length) m).Perm
      (m :: w.S.models.eraseIdx i) := by
    have := List.take_append_drop (specClamp i off w.S.models.length) (w.S.models.eraseIdx i)
    simpa only [jsSpliceInsert, this] using
      (@List.perm_middle ModelState m ((w.S.models.eraseIdx i).take (specClamp i off w.S.models.length)) ((w.S.models.eraseIdx i).drop (specClamp i off w.S.models.length)))
  have hperm0 : w.S.models.Perm (m :: w.S.models.eraseIdx i) := by
    conv_lhs => rw [getElem_decomp w.S.models i m hm]
    rw [List.eraseIdx_eq_take_drop_succ]
    exact List.perm_middle
  have hperm : (jsSpliceInsert (w.S.models.eraseIdx i) (specClamp i off w.S.models.length) m).Perm
      w.S.models := hperm2.trans hperm0.symm
  have hmem1 : ∀ x ∈ jsSpliceInsert (w.S.models.eraseIdx i) (specClamp i off w.S.models.length) m,
      x ∈ w.S.models := fun x hx => hperm.subset hx
  have hstable1 : ∀ x ∈ jsSpliceInsert (w.S.models.eraseIdx i) (specClamp i off w.S.models.length) m,
      lookupKey x = mkey x := fun x hx => g6 x (hmem1 x hx)
  have hlk1 : ∀ x ∈ jsSpliceInsert (w.S.models.eraseIdx i) (specClamp i off w.S.models.length) m,
      (alookup w.S.modelMap (mkey x)).isSome = true := by
    intro x hx
    obtain ⟨meta, hmm⟩ := goodCollB_lookup w.S hgood x (hmem1 x hx)
    simp [hmm]
  have hnd1 : ((jsSpliceInsert (w.S.models.eraseIdx i) (specClamp i off w.S.models.length) m).map mkey).Nodup :=
    ((hperm.map mkey).symm).nodup g3
  have hndid1 : ((jsSpliceInsert (w.S.models.eraseIdx i) (specClamp i off w.S.models.length) m).map (fun x => x.id)).Nodup :=
    ((hperm.map (fun x => x.id)).symm).nodup g4
  obtain ⟨nm, hre, _, _, _⟩ := rebuildAux_spec w.S.modelMap
    (jsSpliceInsert (w.S.models.eraseIdx i) (specClamp i off w.S.models.length) m) 0 []
    hstable1 hlk1 hnd1 (by simp [akeys]) (by simp [akeys])
  refine ⟨{ w with S := { w.S with modelMap := nm, models := jsSpliceInsert (w.S.models.eraseIdx i) (specClamp i off w.S.models.length) m } }, [(.collS, "change")], ?_, ?_, rfl⟩
  · simp only [collMoveAtW, hm, Option.bind_eq_bind, Option.some_bind,
      moveClamp_eq_specClamp, rebuildMap]
    rw [hre]
    simp [trigger_quiet_S, hbus]
  · exact goodCollB_of_rebuild w.S.modelMap
      (jsSpliceInsert (w.S.models.eraseIdx i) (specClamp i off w.S.models.length) m) nm
      w.S.index w.S.persisted w.S.clean w.S.ev hstable1 hlk1 hnd1 hndid1 hre

theorem getElem?_lt_length {α : Type} (l : List α) (n : Nat) (a : α) (h : l[n]? = some a) :
    n < l.length := by
  by_contra hge
  push_neg at hge
  rw [List.getElem?_eq_none hge] at h
  simp at h

theorem goodCollB_add (c : CollState) (m m1 : ModelState) (meta : ModelMeta)
    (hgood : goodCollB c = true)
    (hkey : mkey m ∉ c.models.map mkey)
    (hid : m.id ∉ c.models.map (fun x => x.id))
    (hstm : lookupKey m = mkey m)
    (hfld : m1.fields = m.fields) (hper : m1.persisted = m.persisted) (hid1 : m1.id = m.id)
    (hmidx : meta.index = c.models.length) :
    goodCollB { c with models := c.models ++ [m1], modelMap := aset c.modelMap (mkey m) meta, clean := false } = true := by
  obtain ⟨g1, g2, g3, g4, g5, g6⟩ := (goodCollB_iff c).mp hgood
  have hKmap : mkey m ∉ akeys c.modelMap :=
    fun hc => hkey (goodCollB_mapkeys_sub c hgood _ hc)
  have hk1 : mkey m1 = mkey m := by simp [mkey, modelPk, modelGet, hfld]
  have hlk1 : lookupKey m1 = lookupKey m := by simp [lookupKey, modelPk, modelGet, hfld, hper]
  rw [goodCollB_iff]
  refine ⟨?_, ?_, ?_, ?_, ?_, ?_⟩
  · rw [goodIdxB_iff]
    intro j x hj
    rcases Nat.lt_or_ge j c.models.length with hlt | hge
    · rw [List.getElem?_append, if_pos hlt] at hj
      obtain ⟨meta0, hm0, hm0i⟩ := (goodIdxB_iff c.modelMap c.models 0).mp g1 j x hj
      have hne : mkey x ≠ mkey m := by
        intro hc
        exact hkey (hc ▸ List.mem_map_of_mem mkey (List.getElem?_mem hj))
      rw [alookup_aset_ne _ _ _ _ hne]
      exact ⟨meta0, hm0, hm0i⟩
    · rw [List.getElem?_append, if_neg (by omega)] at hj
      have hj0 : j - c.models.length = 0 ∧ x = m1 := by
        match hx : j - c.models.length with
        | 0 =>
          rw [hx] at hj
          exact ⟨rfl, by simpa using hj.symm⟩
        | k + 1 =>
          rw [hx] at hj
          simp at hj
      obtain ⟨hj0, rfl⟩ := hj0
      rw [hk1, alookup_aset_self]
      exact ⟨meta, rfl, by omega⟩
  · rw [goodMapB_iff]
    intro kv hkv
    rw [aset_not_mem_eq_append _ _ _ hKmap] at hkv
    rcases List.mem_append.mp hkv with hkv1 | hkv1
    · obtain ⟨x, hx1, hx2⟩ := (goodMapB_iff c).mp g2 kv hkv1
      refine ⟨x, ?_, hx2⟩
      rw [List.getElem?_append, if_pos (getElem?_lt_length _ _ _ hx1)]
      exact hx1
    · simp only [List.mem_singleton] at hkv1
      subst hkv1
      refine ⟨m1, ?_, hk1⟩
      show (c.models ++ [m1])[meta.index]? = some m1
      rw [hmidx]
      exact List.getElem?_concat_length c.models m1
  · rw [List.map_append, List.nodup_append]
    refine ⟨g3, by simp, ?_⟩
    intro a ha hb
    simp only [List.map_cons, List.map_nil, List.mem_singleton] at hb
    subst hb
    exact hkey (hk1 ▸ ha)
  · rw [List.map_append, List.nodup_append]
    refine ⟨g4, by simp, ?_⟩
    intro a ha hb
    simp only [List.map_cons, List.map_nil, List.mem_singleton] at hb
    subst hb
    exact hid (hid1 ▸ ha)
  · rw [akeys_aset_of_not_mem _ _ _ hKmap, List.nodup_append]
    refine ⟨g5, by simp, ?_⟩
    intro a ha hb
    simp only [List.mem_singleton] at hb
    subst hb
    exact hKmap ha
  · intro x hx
    rcases List.mem_append.mp hx with h1 | h1
    · exact g6 x h1
    · simp only [List.mem_singleton] at h1
      subst h1
      rw [hlk1, hstm, ← hk1]

theorem collAddW_good (fuel : Nat) (w : World) (m : ModelState)
    (hgood : goodCollB w.S = true) (hbus : busQuiet w.S.ev = true)
    (hkey : mkey m ∉ w.S.models.map mkey)
    (hid : m.id ∉ w.S.models.map (fun x => x.id))
    (hstm : lookupKey m = mkey m) :
    ∃ w' tr, collAddW fuel w m = some (w', tr) ∧ goodCollB w'.S = true ∧
      w'.S.ev = w.S.ev := by
  refine ⟨{ w with S := { w.S with models := w.S.models ++ [{ m with ev := (eventsOn (eventsOn m.ev "change" (.memberChange m.id)).1 "change:pk" .memberChangePK).1 }], modelMap := aset w.S.modelMap (mkey m) { index := w.S.models.length, change := (eventsOn m.ev "change" (.memberChange m.id)).2, changePK := (eventsOn (eventsOn m.ev "change" (.memberChange m.id)).1 "change:pk" .memberChangePK).2 }, clean := false } }, [(.collS, "change"), (.collS, "append")], ?_, ?_, rfl⟩
  · simp [collAddW, trigger_quiet_S, hbus]
  · exact goodCollB_add w.S m _ _ hgood hkey hid hstm rfl rfl rfl rfl

theorem contains_eq_false_iff {α : Type} [BEq α] [LawfulBEq α] (l : List α) (a : α) :
    l.contains a = false ↔ a ∉ l := by
  rw [← Bool.not_eq_true, List.contains_iff_exists_mem_beq]
  simp

theorem contains_eq_true_iff {α : Type} [BEq α] [LawfulBEq α] (l : List α) (a : α) :
    l.contains a = true ↔ a ∈ l := by
  rw [List.contains_iff_exists_mem_beq]
  constructor
  · rintro ⟨b, hb, he⟩
    have : a = b := by simpa using he
    exact this ▸ hb
  · intro h
    exact ⟨a, h, by simp⟩

theorem applyOpW_good (fuel : Nat) (w : World) (op : COp)
    (hgood : goodCollB w.S = true) (hbus : busQuiet w.S.ev = true)
    (hval : validOpB w.S op = true) :
    ∃ w' tr, applyOpW fuel w op = some (w', tr) ∧ goodCollB w'.S = true ∧
      w'.S.ev = w.S.ev := by
  cases op with
  | add m =>
    simp only [validOpB, Bool.and_eq_true, Bool.not_eq_true'] at hval
    exact collAddW_good fuel w m hgood hbus
      ((contains_eq_false_iff _ _).mp hval.1.1)
      ((contains_eq_false_iff _ _).mp hval.1.2)
      (by simpa [stableKeyB] using hval.2)
  | remove m =>
    simp only [validOpB] at hval
    exact collRemoveW_good fuel w m hgood hbus ((contains_eq_true_iff _ _).mp hval)
  | moveAt i off =>
    simp only [validOpB, decide_eq_true_eq] at hval
    exact collMoveAtW_good fuel w i off hgood hbus hval

theorem applyOpsW_good (fuel : Nat) :
    ∀ (ops : List COp) (w : World), goodCollB w.S = true → busQuiet w.S.ev = true →
      validSeqB fuel w ops = true →
      ∀ w', applyOpsW fuel w ops = some w' →
        goodCollB w'.S = true ∧ busQuiet w'.S.ev = true := by
  intro ops
  induction ops with
  | nil =>
    intro w hg hb _ w' happ
    simp only [applyOpsW] at happ
    obtain rfl := Option.some.inj happ
    exact ⟨hg, hb⟩
  | cons op ops ih =>
    intro w hg hb hseq w' happ
    simp only [validSeqB, Bool.and_eq_true] at hseq
    obtain ⟨hval, hrest⟩ := hseq
    obtain ⟨w1, tr, hstep, hg1, hev1⟩ := applyOpW_good fuel w op hg hb hval
    rw [hstep] at hrest
    have hrest' : validSeqB fuel w1 ops = true := hrest
    rw [applyOpsW, hstep] at happ
    have happ' : applyOpsW fuel w1 ops = some w' := happ
    have hb1 : busQuiet w1.S.ev = true := by rw [hev1]; exact hb
    exact ih w1 hg1 hb1 hrest' w' happ'

theorem goodCollB_get_at (c : CollState) (h : goodCollB c = true) :
    ∀ i m, c.models[i]? = some m →
      collGet c (modelPk m) = some m ∧ collAt c i = some m := by
  intro i m hm
  obtain ⟨meta, hmm, hmi⟩ :=
    (goodIdxB_iff c.modelMap c.models 0).mp ((goodCollB_iff c).mp h).1 i m hm
  constructor
  · rw [collGet, show valueKey (modelPk m) = mkey m from rfl, hmm]
    show c.models[meta.index]? = some m
    rw [hmi]
    simpa using hm
  · exact hm

/-- Claim C1: starting from any invariant-satisfying IndexedSet (with no
subscribers on the set's own bus) and applying any sequence of valid
`add` (fresh record, fresh pk), `remove` (of a current member) and
`moveAt` (valid source index) operations, the invariant still holds: the
index entries' positions exactly mirror the items ordering, every item's
pk is a key of the index, no two items share a pk, and for every member
`m` at position `i`, `get(m.pk)` returns `m` and `at(i)` returns `m`. -/
theorem claim_C1 (fuel : Nat) (w : World) (ops : List COp) (w' : World)
    (hgood : goodCollB w.S = true) (hbus : busQuiet w.S.ev = true)
    (hseq : validSeqB fuel w ops = true) (happ : applyOpsW fuel w ops = some w') :
    goodCollB w'.S = true ∧
    (w'.S.models.map mkey).Nodup ∧
    (∀ i m, w'.S.models[i]? = some m →
      collGet w'.S (modelPk m) = some m ∧ collAt w'.S i = some m) := by
  obtain ⟨hg, _⟩ := applyOpsW_good fuel ops w hgood hbus hseq w' happ
  exact ⟨hg, ((goodCollB_iff w'.S).mp hg).2.2.1, goodCollB_get_at w'.S hg⟩

/-- Witness for C1: an empty collection, three fresh adds and a clamped
move form a valid sequence, and the resulting set satisfies the invariant. -/
theorem claim_C1_witness :
    goodCollB emptyWorld.S = true ∧ busQuiet emptyWorld.S.ev = true ∧
    validSeqB 1 emptyWorld [.add mA, .add mB, .add mC, .moveAt 0 2] = true ∧
    ∃ w', applyOpsW 1 emptyWorld [.add mA, .add mB, .add mC, .moveAt 0 2] = some w' ∧
      (goodCollB w'.S = true ∧
       (w'.S.models.map mkey).Nodup ∧
       (∀ i m, w'.S.models[i]? = some m →
         collGet w'.S (modelPk m) = some m ∧ collAt w'.S i = some m)) := by
  refine ⟨by decide, by decide, by decide, ?_⟩
  match hw : applyOpsW 1 emptyWorld [.add mA, .add mB, .add mC, .moveAt 0 2] with
  | none => exact absurd hw (by decide)
  | some w' =>
    exact ⟨w', rfl, claim_C1 1 emptyWorld [.add mA, .add mB, .add mC, .moveAt 0 2] w'
      (by decide) (by decide) (by decide) hw⟩

end JsModels
